import Mathlib

/-!
Shallow embedding of the contact synchronization and merge core of the
casepro repository (`casepro/contacts/sync.py`), together with proofs of
the specification's claims about it.

Python-level conventions used by the embedding:
* Python strings are Lean `String`s; Python's string ordering (used by
  `sorted`) is lexicographic on code points, modelled by `strle` below.
* A Python `dict` is modelled as an association list with the insertion /
  overwrite semantics of CPython (`dinsert`), and dict equality as the
  key-wise lookup equality `dictBeq`.
* A function that can raise is modelled in `Except String`.
-/

deriving instance DecidableEq for Except

/-- Lexicographic order on strings by code points, as Python compares
strings.  Defined on the underlying character lists so that it reduces in
the kernel. -/
def strle (a b : String) : Prop :=
  a.data ≤ b.data

instance : DecidableRel strle := fun a b =>
  inferInstanceAs (Decidable (a.data ≤ b.data))

instance : IsTotal String strle :=
  ⟨fun a b => le_total a.data b.data⟩

instance : IsTrans String strle :=
  ⟨fun _ _ _ h1 h2 => le_trans h1 h2⟩

instance : IsAntisymm String strle := by
  refine ⟨fun a b h1 h2 => ?_⟩
  cases a; cases b
  exact congrArg String.mk (le_antisymm h1 h2)

/-- Python's `sorted` on a list of strings. -/
def pysorted (l : List String) : List String :=
  List.insertionSort strle l

/-- Two string lists have equal `sorted` forms exactly when they are
permutations of one another (i.e. equal as multisets). -/
theorem pysorted_eq_iff_perm {a b : List String} :
    pysorted a = pysorted b ↔ a.Perm b := by
  constructor
  · intro h
    have pb : (pysorted a).Perm b := by
      rw [h]; exact List.perm_insertionSort strle b
    exact (List.perm_insertionSort strle a).symm.trans pb
  · intro h
    exact List.eq_of_perm_of_sorted
      ((List.perm_insertionSort strle a).trans
        (h.trans (List.perm_insertionSort strle b).symm))
      (List.sorted_insertionSort strle a) (List.sorted_insertionSort strle b)

/-- Split a character list at the first colon: the model of Python's
`s.split(':', 1)` when it yields two parts.  `none` when no colon occurs
(in which case the Python source's subscript `u[1]` raises `IndexError`). -/
def splitColon1Aux : List Char → Option (List Char × List Char)
  | [] => none
  | c :: rest =>
      if c = ':' then some ([], rest)
      else (splitColon1Aux rest).map (fun p => (c :: p.1, p.2))

/-- Python's `urn.split(':', 1)` producing the `(scheme, path)` pair, or
`none` when the string holds no colon. -/
def splitColon1 (s : String) : Option (String × String) :=
  (splitColon1Aux s.data).map (fun p => (String.mk p.1, String.mk p.2))

theorem splitColon1Aux_recombine {l a b : List Char}
    (h : splitColon1Aux l = some (a, b)) : a ++ ':' :: b = l := by
  induction l generalizing a b with
  | nil => simp [splitColon1Aux] at h
  | cons c rest ih =>
      unfold splitColon1Aux at h
      by_cases hc : c = ':'
      · rw [if_pos hc] at h
        injection h with h1
        obtain ⟨h2, h3⟩ := Prod.ext_iff.mp h1
        subst h2; subst h3
        simp [hc]
      · rw [if_neg hc] at h
        cases hr : splitColon1Aux rest with
        | none => rw [hr] at h; simp at h
        | some p =>
            rw [hr] at h
            simp only [Option.map_some'] at h
            injection h with h1
            obtain ⟨h2, h3⟩ := Prod.ext_iff.mp h1
            subst h2; subst h3
            have hih := ih (a := p.1) (b := p.2) (by rw [hr])
            simpa using congrArg (List.cons c) hih

theorem splitColon1Aux_no_colon {l a b : List Char}
    (h : splitColon1Aux l = some (a, b)) : ':' ∉ a := by
  induction l generalizing a b with
  | nil => simp [splitColon1Aux] at h
  | cons c rest ih =>
      unfold splitColon1Aux at h
      by_cases hc : c = ':'
      · rw [if_pos hc] at h
        injection h with h1
        obtain ⟨h2, h3⟩ := Prod.ext_iff.mp h1
        subst h2
        simp
      · rw [if_neg hc] at h
        cases hr : splitColon1Aux rest with
        | none => rw [hr] at h; simp at h
        | some p =>
            rw [hr] at h
            simp only [Option.map_some'] at h
            injection h with h1
            obtain ⟨h2, h3⟩ := Prod.ext_iff.mp h1
            subst h2
            intro hmem
            rcases List.mem_cons.mp hmem with hm | hm
            · exact hc hm.symm
            · exact ih (a := p.1) (b := p.2) (by rw [hr]) hm

theorem splitColon1Aux_of_no_colon {a : List Char} (b : List Char)
    (h : ':' ∉ a) : splitColon1Aux (a ++ ':' :: b) = some (a, b) := by
  induction a with
  | nil => simp [splitColon1Aux]
  | cons c rest ih =>
      have hc : c ≠ ':' := fun hh => h (hh ▸ List.mem_cons_self c rest)
      have hrest : ':' ∉ rest := fun hh => h (List.mem_cons_of_mem c hh)
      simp [splitColon1Aux, hc, ih hrest]

/-- A Python `dict` with string keys and values, as an association list in
insertion order with unique keys maintained by `dinsert`. -/
abbrev PyDict := List (String × String)

/-- Python dict lookup `d.get(k)`. -/
def dget (d : PyDict) (k : String) : Option String :=
  (d.find? (fun p => p.1 = k)).map (fun p => p.2)

/-- Python dict assignment `d[k] = v`: overwrite in place if the key is
present, append otherwise. -/
def dinsert (d : PyDict) (k v : String) : PyDict :=
  if d.any (fun p => p.1 = k) then d.map (fun p => if p.1 = k then (k, v) else p)
  else d ++ [(k, v)]

/-- Python `base.update(upd)` semantics over the entries of `upd` in order
(also used with `base = []` to model a dict comprehension). -/
def dictUpdate (base : PyDict) (upd : List (String × String)) : PyDict :=
  upd.foldl (fun d p => dinsert d p.1 p.2) base

/-- A dict built from a list of key-value pairs: the model of a Python dict
comprehension, with later pairs overwriting earlier ones. -/
def dictOf (ps : List (String × String)) : PyDict :=
  dictUpdate [] ps

/-- Python dict equality `a == b`: key-wise equal lookups both ways. -/
def dictBeq (a b : PyDict) : Bool :=
  a.all (fun p => dget b p.1 = some p.2) && b.all (fun p => dget a p.1 = some p.2)

/-- Modelled from the dash.utils dependency: `filter_dict(d, keys)` keeps the
entries of `d` whose key lies in `keys`. -/
def filter_dict (d : PyDict) (keys : List String) : PyDict :=
  d.filter (fun p => decide (p.1 ∈ keys))

/-- Modelled from the dash.utils dependency: `intersection(a, b)` returns the
elements common to `a` and `b` as a duplicate-free list (Python builds
`list(set(a).intersection(b))`; its order is irrelevant because the caller
sorts the result). -/
def intersection (a b : List String) : List String :=
  (a.filter (fun x => decide (x ∈ b))).dedup

/-- A group reference carried by a remote contact snapshot (an ObjectRef of
the remote client: a `uuid` plus a display name). -/
structure GroupRef where
  uuid : String
  name : String
deriving DecidableEq

/-- A remote contact snapshot (`temba_client` Contact): `uuid`, optional
`name`, URN strings of the form `scheme:path`, group references, and a
custom-field dict. -/
structure TembaContact where
  uuid : String
  name : Option String
  urns : List String
  groups : List GroupRef
  fields : PyDict
deriving DecidableEq

/-- The `uuids` helper of `temba_compare_contacts`: the uuid of each group
reference, in list order. -/
def uuidsOf (refs : List GroupRef) : List String :=
  refs.map (fun g => g.uuid)

/-- Python truthiness of an optional list parameter (`if groups:`): true
exactly for a present, non-empty list. -/
def listTruthy (o : Option (List String)) : Bool :=
  match o with
  | none => false
  | some l => !l.isEmpty

/-- `temba_compare_contacts(first, second, inc_urns, fields, groups)` from
`casepro/contacts/sync.py`: compares two snapshots and returns the first
difference found (or `none`), raising `ValueError` on mismatched UUIDs. -/
def temba_compare_contacts (first second : TembaContact) (inc_urns : Bool)
    (fields groups : Option (List String)) : Except String (Option String) :=
  if first.uuid ≠ second.uuid then
    .error "Can't compare contacts with different UUIDs"
  else if first.name ≠ second.name then
    .ok (some "name")
  else if inc_urns = true ∧ pysorted first.urns ≠ pysorted second.urns then
    .ok (some "urns")
  else if groups = none ∧
      pysorted (uuidsOf first.groups) ≠ pysorted (uuidsOf second.groups) then
    .ok (some "groups")
  else if listTruthy groups = true ∧
      pysorted (intersection (uuidsOf first.groups) (groups.getD [])) ≠
        pysorted (intersection (uuidsOf second.groups) (groups.getD [])) then
    .ok (some "groups")
  else if fields = none ∧ dictBeq first.fields second.fields = false then
    .ok (some "fields")
  else if listTruthy fields = true ∧
      dictBeq (filter_dict first.fields (fields.getD []))
        (filter_dict second.fields (fields.getD [])) = false then
    .ok (some "fields")
  else
    .ok none

/-- Parse every URN of a list into its `(scheme, path)` pair; `none` when
some URN holds no colon (Python raises `IndexError` there). -/
def parseUrns : List String → Option (List (String × String))
  | [] => some []
  | u :: rest =>
      match splitColon1 u, parseUrns rest with
      | some p, some ps => some (p :: ps)
      | _, _ => none

/-- Phase one of the group merge in `temba_merge_contacts`: walk the
mutually exclusive group sets in list order, picking for each set the first
group of `first` whose uuid belongs to it, else the first such group of
`second`; every uuid of each set joins the ignore set regardless. -/
def mergePhase1 (fg sg : List GroupRef) :
    List (List String) → List GroupRef × List String
  | [] => ([], [])
  | gset :: rest =>
      let picked :=
        match fg.find? (fun g => decide (g.uuid ∈ gset)) with
        | some g => [g]
        | none =>
            match sg.find? (fun g => decide (g.uuid ∈ gset)) with
            | some g => [g]
            | none => []
      let st := mergePhase1 fg sg rest
      (picked ++ st.1, gset ++ st.2)

/-- Phase two of the group merge: append, in order, each group whose uuid is
not yet ignored, adding its uuid to the ignore set. -/
def addRemaining : List GroupRef → List GroupRef × List String →
    List GroupRef × List String
  | [], st => st
  | g :: gs, st =>
      if g.uuid ∈ st.2 then addRemaining gs st
      else addRemaining gs (st.1 ++ [g], st.2 ++ [g.uuid])

/-- The merged group list of `temba_merge_contacts`: mutually exclusive sets
first, then the remaining groups of `first`, then those of `second`. -/
def mergedGroups (fg sg : List GroupRef) (mutex_group_sets : List (List String)) :
    List GroupRef :=
  (addRemaining sg (addRemaining fg (mergePhase1 fg sg mutex_group_sets))).1

/-- `temba_merge_contacts(first, second, mutex_group_sets)` from
`casepro/contacts/sync.py`: merges two snapshots with priority to `first`,
raising `ValueError` on mismatched UUIDs (and `IndexError` on a URN without
a colon). -/
def temba_merge_contacts (first second : TembaContact)
    (mutex_group_sets : List (List String)) : Except String TembaContact :=
  if first.uuid ≠ second.uuid then
    .error "Can't merge contacts with different UUIDs"
  else
    match parseUrns first.urns with
    | none => .error "IndexError"
    | some fps =>
        match parseUrns second.urns with
        | none => .error "IndexError"
        | some sps =>
            let first_urns_by_scheme := dictOf fps
            let urns_by_scheme := dictUpdate (dictOf sps) first_urns_by_scheme
            let merged_urns := urns_by_scheme.map (fun p => p.1 ++ ":" ++ p.2)
            let merged_fields := dictUpdate second.fields first.fields
            .ok { uuid := first.uuid, name := first.name, urns := merged_urns,
                  fields := merged_fields,
                  groups := mergedGroups first.groups second.groups mutex_group_sets }

/-- A local contact record for some org: its remote `uuid`, the `is_active`
flag, and the rest of the model fields abstracted as `data`. -/
structure LocalRecord (D : Type) where
  uuid : String
  is_active : Bool
  data : D
deriving DecidableEq

/-- The pluggable per-model capabilities `sync_pull_contacts` relies on: the
`kwargs_from_temba` class method, applying derived kwargs to an existing
record (the `setattr` loop), creating a record from kwargs
(`objects.create`), and the remote-shaped projection `as_temba`. -/
structure SyncAdapter (D K : Type) where
  kwargs_from_temba : TembaContact → Option K
  applyKwargs : LocalRecord D → K → LocalRecord D
  createFrom : K → LocalRecord D
  as_temba : LocalRecord D → TembaContact

/-- The counts accumulated by `sync_pull_contacts`. -/
structure SyncCounts where
  created : Nat
  updated : Nat
  deleted : Nat
deriving DecidableEq

/-- Database lookup by uuid for the current org (`existing_by_uuid.get`). -/
def dbFind {D : Type} (db : List (LocalRecord D)) (u : String) :
    Option (LocalRecord D) :=
  db.find? (fun r => r.uuid = u)

/-- Persist an updated record (`existing.save()`): replace the row holding
this uuid. -/
def dbSave {D : Type} (db : List (LocalRecord D)) (u : String)
    (r : LocalRecord D) : List (LocalRecord D) :=
  db.map (fun x => if x.uuid = u then r else x)

/-- The body of the per-incoming-contact loop of `sync_pull_contacts`
(first pass): reconcile one remote snapshot against the start-of-batch
lookup `byUuid`, threading the working database, the batch's list of
invalid record ids, and the counts. -/
def syncProcessIncoming {D K : Type} (A : SyncAdapter D K) (inc_urns : Bool)
    (fields groups : Option (List String))
    (byUuid : String → Option (LocalRecord D))
    (st : List (LocalRecord D) × List String × SyncCounts)
    (incoming : TembaContact) :
    Except String (List (LocalRecord D) × List String × SyncCounts) :=
  let db := st.1
  let invalid := st.2.1
  let cnt := st.2.2
  let incoming_kwargs := A.kwargs_from_temba incoming
  match byUuid incoming.uuid with
  | some existing =>
      match incoming_kwargs with
      | some k => do
          let diff ← temba_compare_contacts incoming (A.as_temba existing)
            inc_urns fields groups
          if diff.isSome ∨ existing.is_active = false then
            pure (dbSave db incoming.uuid
                    { A.applyKwargs existing k with is_active := true },
                  invalid, { cnt with updated := cnt.updated + 1 })
          else
            pure (db, invalid, cnt)
      | none =>
          if existing.is_active then
            pure (db, invalid ++ [existing.uuid],
                  { cnt with deleted := cnt.deleted + 1 })
          else
            pure (db, invalid, cnt)
  | none =>
      match incoming_kwargs with
      | some k =>
          pure (db ++ [A.createFrom k], invalid,
                { cnt with created := cnt.created + 1 })
      | none => pure (db, invalid, cnt)

/-- One batch of the first pass of `sync_pull_contacts`: process each
incoming snapshot against the start-of-batch lookup, then bulk-deactivate
the records collected as invalid. -/
def syncBatch {D K : Type} (A : SyncAdapter D K) (inc_urns : Bool)
    (fields groups : Option (List String))
    (st : List (LocalRecord D) × SyncCounts) (batch : List TembaContact) :
    Except String (List (LocalRecord D) × SyncCounts) := do
  let db := st.1
  let res ← batch.foldlM
    (syncProcessIncoming A inc_urns fields groups (dbFind db)) (db, [], st.2)
  pure (res.1.map (fun r =>
          if r.uuid ∈ res.2.1 then { r with is_active := false } else r),
        res.2.2)

/-- One batch of the second (deleted-contacts) pass of
`sync_pull_contacts`: deactivate every still-active local record whose uuid
the remote reports as deleted, adding the number of rows touched to the
deleted count. -/
def syncDeletedBatch {D : Type} (st : List (LocalRecord D) × SyncCounts)
    (batch : List TembaContact) : List (LocalRecord D) × SyncCounts :=
  let uu := batch.map (fun c => c.uuid)
  let n := (st.1.filter (fun r => decide (r.uuid ∈ uu) && r.is_active)).length
  (st.1.map (fun r =>
      if r.uuid ∈ uu ∧ r.is_active then { r with is_active := false } else r),
   { st.2 with deleted := st.2.deleted + n })

/-- `sync_pull_contacts` from `casepro/contacts/sync.py`, over the remote
responses of the chosen time window: the batches of the active-contacts
query and of the deleted-contacts query.  Returns the final database and the
(created, updated, deleted) counts.  The org is fixed, the contact class
and its class methods are the `SyncAdapter`, and the progress callback is
omitted as it cannot affect state or counts. -/
def sync_pull_contacts {D K : Type} (A : SyncAdapter D K) (inc_urns : Bool)
    (fields groups : Option (List String)) (db : List (LocalRecord D))
    (activeBatches deletedBatches : List (List TembaContact)) :
    Except String (List (LocalRecord D) × SyncCounts) := do
  let st1 ← activeBatches.foldlM (syncBatch A inc_urns fields groups)
    (db, ⟨0, 0, 0⟩)
  pure (deletedBatches.foldl syncDeletedBatch st1)

/-- The name check of the Comparator differs. -/
def nameDiff (a b : TembaContact) : Prop :=
  a.name ≠ b.name

/-- The URN check of the Comparator differs: the URN multisets disagree
(Python compares the `sorted` lists). -/
def urnsDiff (a b : TembaContact) : Prop :=
  ¬ a.urns.Perm b.urns

/-- The group check of the Comparator differs under the given scope: with no
scope the group-UUID multisets disagree; with a non-empty scope the
group-UUID sets intersected with the scope disagree; an empty scope never
differs. -/
def groupsDiff (a b : TembaContact) : Option (List String) → Prop
  | none => ¬ (uuidsOf a.groups).Perm (uuidsOf b.groups)
  | some s => s ≠ [] ∧
      (uuidsOf a.groups).toFinset ∩ s.toFinset ≠
        (uuidsOf b.groups).toFinset ∩ s.toFinset

/-- The field check of the Comparator differs under the given scope: with no
scope the full dicts disagree, otherwise their restrictions to the scope
keys disagree (an empty scope never differs). -/
def fieldsDiff (a b : TembaContact) : Option (List String) → Prop
  | none => dictBeq a.fields b.fields = false
  | some s => s ≠ [] ∧
      dictBeq (filter_dict a.fields s) (filter_dict b.fields s) = false

instance (a b : TembaContact) : Decidable (nameDiff a b) := by
  unfold nameDiff; infer_instance

instance (a b : TembaContact) : Decidable (urnsDiff a b) := by
  unfold urnsDiff; infer_instance

instance (a b : TembaContact) (s : Option (List String)) :
    Decidable (groupsDiff a b s) := by
  cases s <;> (unfold groupsDiff; infer_instance)

instance (a b : TembaContact) (s : Option (List String)) :
    Decidable (fieldsDiff a b s) := by
  cases s <;> (unfold fieldsDiff; infer_instance)

/-- The sorted intersections of the code's group check agree exactly when
the set intersections agree. -/
theorem sorted_intersection_eq_iff (A B s : List String) :
    (pysorted (intersection A s) = pysorted (intersection B s)) ↔
      A.toFinset ∩ s.toFinset = B.toFinset ∩ s.toFinset := by
  rw [pysorted_eq_iff_perm, intersection, intersection,
    ← List.toFinset_eq_iff_perm_dedup, List.toFinset_filter,
    List.toFinset_filter]
  have hA : (A.toFinset.filter fun x => decide (x ∈ s)) =
      A.toFinset ∩ s.toFinset := by
    rw [← Finset.filter_mem_eq_inter]
    apply Finset.filter_congr
    intro x _
    simp
  have hB : (B.toFinset.filter fun x => decide (x ∈ s)) =
      B.toFinset ∩ s.toFinset := by
    rw [← Finset.filter_mem_eq_inter]
    apply Finset.filter_congr
    intro x _
    simp
  rw [hA, hB]

/-- The tail of the Comparator once the name, urn and group checks have all
passed: the two field checks agree with `fieldsDiff`. -/
theorem compare_fields_tail (a b : TembaContact) (fs : Option (List String)) :
    (if fs = none ∧ dictBeq a.fields b.fields = false then
        Except.ok (some "fields")
      else if listTruthy fs = true ∧
          dictBeq (filter_dict a.fields (fs.getD []))
            (filter_dict b.fields (fs.getD [])) = false then
        Except.ok (some "fields")
      else Except.ok none) =
    (Except.ok (if fieldsDiff a b fs then some "fields" else none) :
      Except String (Option String)) := by
  cases fs with
  | none =>
      by_cases h4 : fieldsDiff a b none
      · rw [if_pos ⟨rfl, h4⟩, if_pos h4]
      · have h4' : ¬ ((none : Option (List String)) = none ∧
            dictBeq a.fields b.fields = false) := fun hx => h4 hx.2
        rw [if_neg h4', if_neg (show ¬ (listTruthy none = true ∧ _) by
          simp [listTruthy]), if_neg h4]
  | some s =>
      have hnone : ¬ ((some s : Option (List String)) = none ∧
          dictBeq a.fields b.fields = false) := by simp
      rw [if_neg hnone]
      by_cases h4 : fieldsDiff a b (some s)
      · have hcode : listTruthy (some s) = true ∧
            dictBeq (filter_dict a.fields
                ((some s : Option (List String)).getD []))
              (filter_dict b.fields
                ((some s : Option (List String)).getD [])) = false := by
          obtain ⟨hs, hne⟩ := h4
          exact ⟨by simp [listTruthy, hs], by simpa using hne⟩
        rw [if_pos hcode, if_pos h4]
      · have hcode : ¬ (listTruthy (some s) = true ∧
            dictBeq (filter_dict a.fields
                ((some s : Option (List String)).getD []))
              (filter_dict b.fields
                ((some s : Option (List String)).getD [])) = false) := by
          intro hx
          apply h4
          refine ⟨?_, by simpa using hx.2⟩
          intro hs
          rw [hs] at hx
          simp [listTruthy] at hx
        rw [if_neg hcode, if_neg h4]

/-- Characterization of `temba_compare_contacts` on snapshots sharing a
uuid: the result is the first of the four checks, in source order, that
differs. -/
theorem compare_spec (a b : TembaContact) (inc : Bool)
    (fs gs : Option (List String)) (h : a.uuid = b.uuid) :
    temba_compare_contacts a b inc fs gs = .ok
      (if nameDiff a b then some "name"
       else if inc = true ∧ urnsDiff a b then some "urns"
       else if groupsDiff a b gs then some "groups"
       else if fieldsDiff a b fs then some "fields"
       else none) := by
  have hu : (pysorted a.urns ≠ pysorted b.urns) = urnsDiff a b := by
    unfold urnsDiff
    exact propext (not_congr pysorted_eq_iff_perm)
  unfold temba_compare_contacts
  rw [if_neg (by simp [h])]
  by_cases h1 : nameDiff a b
  · rw [if_pos (show a.name ≠ b.name from h1), if_pos h1]
  · rw [if_neg (show ¬ a.name ≠ b.name from h1), if_neg h1]
    by_cases h2 : inc = true ∧ urnsDiff a b
    · rw [if_pos (hu ▸ h2), if_pos h2]
    · rw [if_neg (hu ▸ h2), if_neg h2]
      cases gs with
      | none =>
          by_cases h3 : groupsDiff a b none
          · rw [if_pos ⟨rfl, not_congr pysorted_eq_iff_perm |>.mpr h3⟩,
              if_pos h3]
          · have h3' : ¬ (none = (none : Option (List String)) ∧
                pysorted (uuidsOf a.groups) ≠ pysorted (uuidsOf b.groups)) := by
              intro hx
              exact h3 (not_congr pysorted_eq_iff_perm |>.mp hx.2)
            rw [if_neg h3', if_neg (show ¬ (listTruthy none = true ∧ _) by
              simp [listTruthy]), if_neg h3]
            exact compare_fields_tail a b fs
      | some s =>
          have hnone : ¬ ((some s : Option (List String)) = none ∧
              pysorted (uuidsOf a.groups) ≠ pysorted (uuidsOf b.groups)) := by
            simp
          rw [if_neg hnone]
          by_cases h3 : groupsDiff a b (some s)
          · have hcode : listTruthy (some s) = true ∧
                pysorted (intersection (uuidsOf a.groups)
                    ((some s : Option (List String)).getD [])) ≠
                  pysorted (intersection (uuidsOf b.groups)
                    ((some s : Option (List String)).getD [])) := by
              obtain ⟨hs, hne⟩ := h3
              refine ⟨by simp [listTruthy, hs], ?_⟩
              simpa using
                (not_congr (sorted_intersection_eq_iff
                  (uuidsOf a.groups) (uuidsOf b.groups) s)).mpr hne
            rw [if_pos hcode, if_pos h3]
          · have hcode : ¬ (listTruthy (some s) = true ∧
                pysorted (intersection (uuidsOf a.groups)
                    ((some s : Option (List String)).getD [])) ≠
                  pysorted (intersection (uuidsOf b.groups)
                    ((some s : Option (List String)).getD []))) := by
              intro hx
              apply h3
              refine ⟨?_, ?_⟩
              · intro hs
                rw [hs] at hx
                simp [listTruthy] at hx
              · exact (not_congr (sorted_intersection_eq_iff
                  (uuidsOf a.groups) (uuidsOf b.groups) s)).mp
                  (by simpa using hx.2)
            rw [if_neg hcode, if_neg h3]
            exact compare_fields_tail a b fs

/-- Lookup in a filtered dict: present exactly for keys inside the filter
set, with the original value. -/
theorem dget_filter_dict (d : PyDict) (s : List String) (k : String) :
    dget (filter_dict d s) k = if k ∈ s then dget d k else none := by
  induction d with
  | nil => simp [filter_dict, dget]
  | cons p rest ih =>
      unfold filter_dict at ih ⊢
      by_cases hp : p.1 ∈ s
      · rw [List.filter_cons_of_pos (by simpa using hp)]
        by_cases hk : p.1 = k
        · rw [show dget (p :: List.filter (fun q => decide (q.1 ∈ s)) rest) k =
              some p.2 from by simp [dget, List.find?, hk]]
          rw [if_pos (hk ▸ hp)]
          simp [dget, List.find?, hk]
        · rw [show dget (p :: List.filter (fun q => decide (q.1 ∈ s)) rest) k =
              dget (List.filter (fun q => decide (q.1 ∈ s)) rest) k from by
            simp [dget, List.find?, hk]]
          rw [ih]
          by_cases hks : k ∈ s
          · rw [if_pos hks, if_pos hks]
            simp [dget, List.find?, hk]
          · rw [if_neg hks, if_neg hks]
      · rw [List.filter_cons_of_neg (by simpa using hp)]
        rw [ih]
        by_cases hks : k ∈ s
        · rw [if_pos hks, if_pos hks]
          have hk : p.1 ≠ k := fun he => hp (he ▸ hks)
          simp [dget, List.find?, hk]
        · rw [if_neg hks, if_neg hks]

/-- In a dict whose keys are unique, every entry is what lookup of its key
returns. -/
theorem dget_of_mem_nodup {d : PyDict} {p : String × String}
    (h : (d.map Prod.fst).Nodup) (hp : p ∈ d) : dget d p.1 = some p.2 := by
  induction d with
  | nil => simp at hp
  | cons q rest ih =>
      rcases List.mem_cons.mp hp with hq | hq
      · subst hq
        simp [dget, List.find?]
      · have hne : q.1 ≠ p.1 := by
          intro he
          have hm : p.1 ∈ rest.map Prod.fst := List.mem_map_of_mem Prod.fst hq
          rw [← he] at hm
          exact (List.nodup_cons.mp h).1 hm
        have hd : (decide (q.1 = p.1)) = false := by simp [hne]
        simp only [dget, List.find?, hd]
        exact ih (List.nodup_cons.mp h).2 hq

/-- A successful lookup comes from an entry of the dict. -/
theorem mem_of_dget {d : PyDict} {k v : String} (h : dget d k = some v) :
    (k, v) ∈ d := by
  unfold dget at h
  cases hf : d.find? (fun p => p.1 = k) with
  | none => rw [hf] at h; simp at h
  | some p =>
      rw [hf] at h
      simp only [Option.map_some'] at h
      injection h with hv
      have hpm := List.mem_of_find?_eq_some hf
      have hpk := List.find?_some hf
      simp only [decide_eq_true_eq] at hpk
      have hpe : p = (k, v) := by
        cases p
        simp only at hpk hv
        rw [hpk, hv]
      exact hpe ▸ hpm

/-- Python dict equality agrees with key-wise lookup equality on dicts with
unique keys. -/
theorem dictBeq_true_iff {a b : PyDict} (ha : (a.map Prod.fst).Nodup)
    (hb : (b.map Prod.fst).Nodup) :
    dictBeq a b = true ↔ ∀ k, dget a k = dget b k := by
  unfold dictBeq
  rw [Bool.and_eq_true, List.all_eq_true, List.all_eq_true]
  constructor
  · intro hh k
    obtain ⟨h1, h2⟩ := hh
    cases hka : dget a k with
    | some v =>
        have hm := mem_of_dget hka
        have hv := h1 _ hm
        simp only [decide_eq_true_eq] at hv
        exact hv.symm
    | none =>
        cases hkb : dget b k with
        | none => rfl
        | some w =>
            have hm := mem_of_dget hkb
            have hw := h2 _ hm
            simp only [decide_eq_true_eq] at hw
            rw [hka] at hw
            simp at hw
  · intro h
    constructor
    · intro p hp
      simp only [decide_eq_true_eq]
      rw [← h p.1]
      exact dget_of_mem_nodup ha hp
    · intro p hp
      simp only [decide_eq_true_eq]
      rw [h p.1]
      exact dget_of_mem_nodup hb hp

/-- Filtering a dict keeps its keys unique. -/
theorem filter_dict_keys_nodup {d : PyDict} (h : (d.map Prod.fst).Nodup)
    (s : List String) : ((filter_dict d s).map Prod.fst).Nodup :=
  List.Nodup.sublist (List.Sublist.map Prod.fst (List.filter_sublist d)) h

/-- C2: on snapshots sharing a uuid, `temba_compare_contacts` evaluates the
checks in the fixed order name, urns (only when `inc_urns` is true),
groups, fields, and returns the label of the first check that differs; it
returns `none` exactly when no check under the active scope differs; in
particular a name difference is reported as "name" no matter what the later
checks would say. -/
theorem temba_compare_first_difference
    (a b : TembaContact) (inc : Bool) (fs gs : Option (List String))
    (h : a.uuid = b.uuid) :
    temba_compare_contacts a b inc fs gs = .ok
      (if nameDiff a b then some "name"
       else if inc = true ∧ urnsDiff a b then some "urns"
       else if groupsDiff a b gs then some "groups"
       else if fieldsDiff a b fs then some "fields"
       else none) ∧
    (nameDiff a b → temba_compare_contacts a b inc fs gs = .ok (some "name")) ∧
    (temba_compare_contacts a b inc fs gs = .ok none ↔
      ¬ nameDiff a b ∧ ¬ (inc = true ∧ urnsDiff a b) ∧
        ¬ groupsDiff a b gs ∧ ¬ fieldsDiff a b fs) := by
  refine ⟨compare_spec a b inc fs gs h, ?_, ?_⟩
  · intro hn
    rw [compare_spec a b inc fs gs h, if_pos hn]
  · rw [compare_spec a b inc fs gs h]
    constructor
    · intro hok
      split_ifs at hok with h1 h2 h3 h4
      all_goals first
        | (exact ⟨h1, h2, h3, h4⟩)
        | (injection hok with hok; exact absurd hok (by simp))
    · intro ⟨h1, h2, h3, h4⟩
      rw [if_neg h1, if_neg h2, if_neg h3, if_neg h4]

/-- C2 witness: a concrete pair differing in both name and groups is
reported as a name difference. -/
theorem temba_compare_first_difference_witness :
    temba_compare_contacts
      ⟨"u", some "Ann", [], [⟨"A", "a"⟩], []⟩
      ⟨"u", some "Bob", [], [⟨"B", "b"⟩], []⟩ true none none =
      .ok (some "name") :=
  (temba_compare_first_difference
    ⟨"u", some "Ann", [], [⟨"A", "a"⟩], []⟩
    ⟨"u", some "Bob", [], [⟨"B", "b"⟩], []⟩ true none none rfl).2.1
    (by decide)

/-- C8: comparing or merging snapshots with different uuids raises
`ValueError` at once; no comparison result and no merged snapshot is
produced. -/
theorem compare_merge_uuid_mismatch_raises
    (a b : TembaContact) (inc : Bool) (fs gs : Option (List String))
    (sets : List (List String)) (h : a.uuid ≠ b.uuid) :
    temba_compare_contacts a b inc fs gs =
      .error "Can't compare contacts with different UUIDs" ∧
    temba_merge_contacts a b sets =
      .error "Can't merge contacts with different UUIDs" := by
  constructor
  · unfold temba_compare_contacts
    rw [if_pos h]
  · unfold temba_merge_contacts
    rw [if_pos h]

/-- C8 witness: concrete snapshots with distinct uuids make both functions
raise. -/
theorem compare_merge_uuid_mismatch_raises_witness :
    temba_compare_contacts ⟨"u1", none, [], [], []⟩ ⟨"u2", none, [], [], []⟩
      true none none =
      .error "Can't compare contacts with different UUIDs" ∧
    temba_merge_contacts ⟨"u1", none, [], [], []⟩ ⟨"u2", none, [], [], []⟩
      [] =
      .error "Can't merge contacts with different UUIDs" :=
  compare_merge_uuid_mismatch_raises ⟨"u1", none, [], [], []⟩
    ⟨"u2", none, [], [], []⟩ true none none [] (by decide)

/-- When the two group-UUID lists agree as multisets, no group scope can
report a group difference. -/
theorem groupsDiff_not_of_perm {a b : TembaContact}
    (h : (uuidsOf a.groups).Perm (uuidsOf b.groups))
    (gs : Option (List String)) : ¬ groupsDiff a b gs := by
  cases gs with
  | none => exact fun hn => hn h
  | some s =>
      intro hd
      have ht : (uuidsOf a.groups).toFinset = (uuidsOf b.groups).toFinset :=
        List.toFinset_eq_iff_perm_dedup.mpr h.dedup
      exact hd.2 (by rw [ht])

/-- C3 counterexample: two snapshots whose group-UUID sets are equal (one
side repeats uuid A across two distinct group references) are nonetheless
reported as a group difference under scope `None`, because the code
compares sorted uuid lists, i.e. multisets. -/
theorem temba_compare_scope_counterexample :
    temba_compare_contacts ⟨"u", none, [], [⟨"A", "x"⟩, ⟨"A", "y"⟩], []⟩
        ⟨"u", none, [], [⟨"A", "x"⟩], []⟩ true none none =
      .ok (some "groups") ∧
    (uuidsOf [⟨"A", "x"⟩, ⟨"A", "y"⟩]).toFinset =
      (uuidsOf [⟨"A", "x"⟩]).toFinset := by
  constructor
  · decide
  · decide

/-- C3 (amended): on snapshots sharing a uuid whose name and urn checks
pass, scope `None` reports a group difference iff the group-UUID multisets
differ (sets only when the lists are duplicate-free); a given scope reports
iff it is non-empty and the UUID sets intersected with the scope differ;
with the group check passing, scope `None` reports a field difference iff
the full dicts differ, a given field scope on which all lookups agree
reports nothing, a field scope reports a difference iff it is non-empty
and the field mappings restricted to its keys differ, and explicit empty
scopes never produce the corresponding difference. -/
theorem temba_compare_scope_semantics
    (a b : TembaContact) (inc : Bool) (h : a.uuid = b.uuid)
    (hn : ¬ nameDiff a b) (hu : ¬ (inc = true ∧ urnsDiff a b)) :
    (∀ fs, temba_compare_contacts a b inc fs none = .ok (some "groups") ↔
      ¬ (uuidsOf a.groups).Perm (uuidsOf b.groups)) ∧
    (∀ fs s, temba_compare_contacts a b inc fs (some s) =
        .ok (some "groups") ↔
      s ≠ [] ∧ (uuidsOf a.groups).toFinset ∩ s.toFinset ≠
        (uuidsOf b.groups).toFinset ∩ s.toFinset) ∧
    (∀ gs, ¬ groupsDiff a b gs →
      (temba_compare_contacts a b inc none gs = .ok (some "fields") ↔
        dictBeq a.fields b.fields = false)) ∧
    (∀ gs s, ¬ groupsDiff a b gs →
      (a.fields.map Prod.fst).Nodup → (b.fields.map Prod.fst).Nodup →
      (∀ k ∈ s, dget a.fields k = dget b.fields k) →
      temba_compare_contacts a b inc (some s) gs = .ok none) ∧
    (∀ gs s, ¬ groupsDiff a b gs →
      (a.fields.map Prod.fst).Nodup → (b.fields.map Prod.fst).Nodup →
      (temba_compare_contacts a b inc (some s) gs = .ok (some "fields") ↔
        (s ≠ [] ∧ ¬ ∀ k ∈ s, dget a.fields k = dget b.fields k))) ∧
    temba_compare_contacts a b inc (some []) (some []) = .ok none := by
  refine ⟨?_, ?_, ?_, ?_, ?_, ?_⟩
  · intro fs
    rw [compare_spec a b inc fs none h, if_neg hn, if_neg hu]
    by_cases h3 : groupsDiff a b none
    · rw [if_pos h3]
      exact ⟨fun _ => h3, fun _ => rfl⟩
    · rw [if_neg h3]
      constructor
      · intro hok
        split_ifs at hok <;> exact absurd hok (by decide)
      · intro hperm
        exact absurd (show groupsDiff a b none from hperm) h3
  · intro fs s
    rw [compare_spec a b inc fs (some s) h, if_neg hn, if_neg hu]
    by_cases h3 : groupsDiff a b (some s)
    · rw [if_pos h3]
      exact ⟨fun _ => h3, fun _ => rfl⟩
    · rw [if_neg h3]
      constructor
      · intro hok
        split_ifs at hok <;> exact absurd hok (by decide)
      · intro hd
        exact absurd (show groupsDiff a b (some s) from hd) h3
  · intro gs h3
    rw [compare_spec a b inc none gs h, if_neg hn, if_neg hu, if_neg h3]
    by_cases h4 : fieldsDiff a b none
    · rw [if_pos h4]
      exact ⟨fun _ => h4, fun _ => rfl⟩
    · rw [if_neg h4]
      constructor
      · intro hok
        exact absurd hok (by decide)
      · intro hne
        exact absurd (show fieldsDiff a b none from hne) h4
  · intro gs s h3 ha hb hagree
    rw [compare_spec a b inc (some s) gs h, if_neg hn, if_neg hu, if_neg h3]
    have h4 : ¬ fieldsDiff a b (some s) := by
      intro hd
      have heq : dictBeq (filter_dict a.fields s) (filter_dict b.fields s) =
          true := by
        rw [dictBeq_true_iff (filter_dict_keys_nodup ha s)
          (filter_dict_keys_nodup hb s)]
        intro k
        rw [dget_filter_dict, dget_filter_dict]
        by_cases hks : k ∈ s
        · rw [if_pos hks, if_pos hks]
          exact hagree k hks
        · rw [if_neg hks, if_neg hks]
      have hfalse := hd.2
      rw [heq] at hfalse
      exact absurd hfalse (by simp)
    rw [if_neg h4]
  · intro gs s h3 ha hb
    rw [compare_spec a b inc (some s) gs h, if_neg hn, if_neg hu, if_neg h3]
    have hiff : dictBeq (filter_dict a.fields s) (filter_dict b.fields s) =
        true ↔ ∀ k ∈ s, dget a.fields k = dget b.fields k := by
      rw [dictBeq_true_iff (filter_dict_keys_nodup ha s)
        (filter_dict_keys_nodup hb s)]
      constructor
      · intro hall k hk
        have hkk := hall k
        rw [dget_filter_dict, dget_filter_dict, if_pos hk, if_pos hk] at hkk
        exact hkk
      · intro hall k
        rw [dget_filter_dict, dget_filter_dict]
        by_cases hk : k ∈ s
        · rw [if_pos hk, if_pos hk]
          exact hall k hk
        · rw [if_neg hk, if_neg hk]
    have hiff2 : dictBeq (filter_dict a.fields s) (filter_dict b.fields s) =
        false ↔ ¬ ∀ k ∈ s, dget a.fields k = dget b.fields k :=
      Bool.eq_false_iff.trans (not_congr hiff)
    by_cases h4 : fieldsDiff a b (some s)
    · rw [if_pos h4]
      obtain ⟨hs, hfalse⟩ := h4
      exact ⟨fun _ => ⟨hs, hiff2.mp hfalse⟩, fun _ => rfl⟩
    · rw [if_neg h4]
      constructor
      · intro hok
        exact absurd hok (by decide)
      · intro hd
        exact absurd (show fieldsDiff a b (some s) from
          ⟨hd.1, hiff2.mpr hd.2⟩) h4
  · rw [compare_spec a b inc (some []) (some []) h, if_neg hn, if_neg hu,
      if_neg (show ¬ groupsDiff a b (some []) from fun hd => hd.1 rfl),
      if_neg (show ¬ fieldsDiff a b (some []) from fun hd => hd.1 rfl)]

/-- C3 witness: two snapshots differing only in field key k1 compare as
`none` under field scope {k0}, as a field difference under scope `None`,
and as a field difference under field scope {k1}. -/
theorem temba_compare_scope_semantics_witness :
    temba_compare_contacts ⟨"u", none, [], [], [("k0", "1"), ("k1", "2")]⟩
        ⟨"u", none, [], [], [("k0", "1"), ("k1", "3")]⟩ true (some ["k0"])
        none = .ok none ∧
    temba_compare_contacts ⟨"u", none, [], [], [("k0", "1"), ("k1", "2")]⟩
        ⟨"u", none, [], [], [("k0", "1"), ("k1", "3")]⟩ true none none =
      .ok (some "fields") ∧
    temba_compare_contacts ⟨"u", none, [], [], [("k0", "1"), ("k1", "2")]⟩
        ⟨"u", none, [], [], [("k0", "1"), ("k1", "3")]⟩ true (some ["k1"])
        none = .ok (some "fields") := by
  refine ⟨?_, ?_, ?_⟩
  · exact (temba_compare_scope_semantics
      ⟨"u", none, [], [], [("k0", "1"), ("k1", "2")]⟩
      ⟨"u", none, [], [], [("k0", "1"), ("k1", "3")]⟩ true rfl (by decide)
      (by decide)).2.2.2.1 none ["k0"] (by decide) (by decide) (by decide)
      (by decide)
  · exact ((temba_compare_scope_semantics
      ⟨"u", none, [], [], [("k0", "1"), ("k1", "2")]⟩
      ⟨"u", none, [], [], [("k0", "1"), ("k1", "3")]⟩ true rfl (by decide)
      (by decide)).2.2.1 none (by decide)).mpr (by decide)
  · exact ((temba_compare_scope_semantics
      ⟨"u", none, [], [], [("k0", "1"), ("k1", "2")]⟩
      ⟨"u", none, [], [], [("k0", "1"), ("k1", "3")]⟩ true rfl (by decide)
      (by decide)).2.2.2.2.1 none ["k1"] (by decide) (by decide)
      (by decide)).mpr (by decide)

/-- Overwriting entries of another key leaves a lookup unchanged. -/
theorem dget_map_overwrite_ne {d : PyDict} {kk v k : String} (hk : k ≠ kk) :
    dget (d.map (fun p => if p.1 = kk then (kk, v) else p)) k = dget d k := by
  induction d with
  | nil => rfl
  | cons p rest ih =>
      by_cases hp : p.1 = kk
      · have h1 : (decide (((kk, v) : String × String).1 = k)) = false := by
          simp only [decide_eq_false_iff_not]
          exact fun hh => hk hh.symm
        have h2 : (decide (p.1 = k)) = false := by
          simp only [decide_eq_false_iff_not]
          rw [hp]
          exact fun hh => hk hh.symm
        simp only [List.map_cons, if_pos hp, dget, List.find?, h1, h2]
        exact ih
      · simp only [List.map_cons, if_neg hp, dget, List.find?]
        by_cases hpk : p.1 = k
        · simp [hpk]
        · have h2 : (decide (p.1 = k)) = false := by simp [hpk]
          rw [h2]
          exact ih

/-- Overwriting entries of a present key makes its lookup the new value. -/
theorem dget_map_overwrite_eq {d : PyDict} {kk v : String}
    (hany : d.any (fun p => p.1 = kk) = true) :
    dget (d.map (fun p => if p.1 = kk then (kk, v) else p)) kk = some v := by
  induction d with
  | nil => simp at hany
  | cons p rest ih =>
      by_cases hp : p.1 = kk
      · simp [List.map_cons, if_pos hp, dget, List.find?]
      · have h2 : (decide (p.1 = kk)) = false := by simp [hp]
        simp only [List.map_cons, if_neg hp, dget, List.find?, h2]
        have hrest : rest.any (fun p => p.1 = kk) = true := by
          rw [List.any_cons, h2, Bool.false_or] at hany
          exact hany
        exact ih hrest

/-- Looking up an appended fresh entry. -/
theorem dget_append_single (d : PyDict) (kk v k : String)
    (hnone : d.any (fun p => p.1 = kk) = false) :
    dget (d ++ [(kk, v)]) k = if k = kk then some v else dget d k := by
  induction d with
  | nil =>
      simp only [List.nil_append, dget, List.find?]
      by_cases hkk : kk = k
      · subst hkk
        simp
      · have h1 : (decide (kk = k)) = false := by simp [hkk]
        rw [h1]
        simp only [Option.map_none']
        rw [if_neg (fun hh => hkk hh.symm)]
  | cons p rest ih =>
      rw [List.any_cons, Bool.or_eq_false_iff] at hnone
      obtain ⟨hp, hrest⟩ := hnone
      have hpneq : p.1 ≠ kk := by simpa using hp
      simp only [List.cons_append, dget, List.find?]
      by_cases hpk : p.1 = k
      · have hk : k ≠ kk := fun hh => hpneq (hpk.trans hh)
        rw [if_neg hk]
        simp [hpk]
      · have h2 : (decide (p.1 = k)) = false := by simp [hpk]
        rw [h2]
        exact ih hrest

/-- Lookup through a single dict assignment. -/
theorem dget_dinsert (d : PyDict) (kk v k : String) :
    dget (dinsert d kk v) k = if k = kk then some v else dget d k := by
  unfold dinsert
  by_cases hany : d.any (fun p => p.1 = kk) = true
  · rw [if_pos hany]
    by_cases hk : k = kk
    · subst hk
      rw [if_pos rfl]
      exact dget_map_overwrite_eq hany
    · rw [if_neg hk]
      exact dget_map_overwrite_ne hk
  · rw [if_neg hany]
    exact dget_append_single d kk v k (Bool.eq_false_iff.mpr hany)

/-- The value of the last entry of a pair list carrying the given key: what
a Python dict built from that pair list in order stores for the key. -/
def dgetLast (ps : List (String × String)) (k : String) : Option String :=
  ((ps.filter (fun p => p.1 = k)).getLast?).map (fun p => p.2)

theorem dgetLast_nil (k : String) : dgetLast [] k = none := rfl

theorem dgetLast_cons (p : String × String) (ps : List (String × String))
    (k : String) :
    dgetLast (p :: ps) k =
      (dgetLast ps k).or (if p.1 = k then some p.2 else none) := by
  unfold dgetLast
  by_cases hp : p.1 = k
  · rw [List.filter_cons_of_pos (by simpa using hp), if_pos hp]
    cases hf : ps.filter (fun q => decide (q.1 = k)) with
    | nil => simp [List.getLast?]
    | cons q qs =>
        rw [List.getLast?_cons_cons]
        cases hl : (q :: qs).getLast? with
        | none => simp at hl
        | some r => simp [hl, Option.or]
  · rw [List.filter_cons_of_neg (by simpa using hp), if_neg hp, Option.or_none]

/-- Lookup in an updated dict: the last update entry for the key wins, and
the base dict answers when no update entry carries the key. -/
theorem dget_dictUpdate (base : PyDict) (upd : List (String × String))
    (k : String) :
    dget (dictUpdate base upd) k = (dgetLast upd k).or (dget base k) := by
  induction upd generalizing base with
  | nil => rw [show dictUpdate base [] = base from rfl, dgetLast_nil,
      Option.none_or]
  | cons p rest ih =>
      rw [show dictUpdate base (p :: rest) =
          dictUpdate (dinsert base p.1 p.2) rest from rfl]
      rw [ih (dinsert base p.1 p.2), dget_dinsert, dgetLast_cons]
      cases hr : dgetLast rest k with
      | some v => rfl
      | none =>
          simp only [Option.none_or]
          by_cases hp : p.1 = k
          · rw [if_pos hp, if_pos hp.symm]
            rfl
          · rw [if_neg hp, if_neg (fun hh => hp hh.symm), Option.none_or]

/-- Lookup in a dict built from a pair list: the last entry for the key. -/
theorem dget_dictOf (ps : List (String × String)) (k : String) :
    dget (dictOf ps) k = dgetLast ps k := by
  rw [dictOf, dget_dictUpdate]
  rw [show dget [] k = none from rfl, Option.or_none]

/-- On a pair list with unique keys, the last entry for a key is the first:
lookup and last-wins agree. -/
theorem dgetLast_eq_dget_of_nodup {d : List (String × String)}
    (h : (d.map Prod.fst).Nodup) (k : String) :
    dgetLast d k = dget d k := by
  induction d with
  | nil => rfl
  | cons p rest ih =>
      rw [dgetLast_cons, ih (List.nodup_cons.mp h).2]
      by_cases hp : p.1 = k
      · have hnone : dget rest k = none := by
          cases hg : dget rest k with
          | none => rfl
          | some v =>
              have hm := mem_of_dget hg
              have hk : k ∈ rest.map Prod.fst :=
                List.mem_map.mpr ⟨(k, v), hm, rfl⟩
              rw [← hp] at hk
              exact absurd hk (List.nodup_cons.mp h).1
        rw [hnone, Option.none_or, if_pos hp]
        simp [dget, List.find?, hp]
      · rw [if_neg hp, Option.or_none]
        have hd : (decide (p.1 = k)) = false := by simp [hp]
        simp [dget, List.find?, hd]

/-- The keys of a dict after one assignment. -/
theorem keys_dinsert (d : PyDict) (kk v : String) :
    (dinsert d kk v).map Prod.fst =
      if d.any (fun p => p.1 = kk) then d.map Prod.fst
      else d.map Prod.fst ++ [kk] := by
  unfold dinsert
  by_cases hany : d.any (fun p => p.1 = kk) = true
  · rw [if_pos hany, if_pos hany, List.map_map]
    apply List.map_congr_left
    intro p _
    by_cases hp : p.1 = kk
    · simp [hp]
    · simp [hp]
  · rw [if_neg hany, if_neg hany, List.map_append]
    rfl

/-- Updating keeps dict keys unique. -/
theorem keys_nodup_dictUpdate {base : PyDict}
    (h : (base.map Prod.fst).Nodup) (upd : List (String × String)) :
    ((dictUpdate base upd).map Prod.fst).Nodup := by
  induction upd generalizing base with
  | nil => exact h
  | cons p rest ih =>
      rw [show dictUpdate base (p :: rest) =
          dictUpdate (dinsert base p.1 p.2) rest from rfl]
      apply ih
      rw [keys_dinsert]
      by_cases hany : base.any (fun q => q.1 = p.1) = true
      · rw [if_pos hany]
        exact h
      · rw [if_neg hany]
        rw [List.nodup_append]
        refine ⟨h, List.nodup_singleton p.1, ?_⟩
        intro x hx hx1
        rcases List.mem_singleton.mp hx1 with rfl
        rcases List.mem_map.mp hx with ⟨q, hq, hqk⟩
        exact absurd (List.any_eq_true.mpr ⟨q, hq, by simp [hqk]⟩) hany

/-- The keys of a dict built from a pair list are unique. -/
theorem keys_nodup_dictOf (ps : List (String × String)) :
    ((dictOf ps).map Prod.fst).Nodup :=
  keys_nodup_dictUpdate (by simp) ps

/-- Every key of an updated dict comes from the base or from the update. -/
theorem keys_dictUpdate_subset (base : PyDict) (upd : List (String × String))
    (k : String) (hk : k ∈ (dictUpdate base upd).map Prod.fst) :
    k ∈ base.map Prod.fst ∨ k ∈ upd.map Prod.fst := by
  induction upd generalizing base with
  | nil => exact Or.inl hk
  | cons p rest ih =>
      rw [show dictUpdate base (p :: rest) =
          dictUpdate (dinsert base p.1 p.2) rest from rfl] at hk
      rcases ih (dinsert base p.1 p.2) hk with hb | hr
      · rw [keys_dinsert] at hb
        by_cases hany : base.any (fun q => q.1 = p.1) = true
        · rw [if_pos hany] at hb
          exact Or.inl hb
        · rw [if_neg hany] at hb
          rcases List.mem_append.mp hb with hb1 | hb2
          · exact Or.inl hb1
          · rcases List.mem_singleton.mp hb2 with rfl
            exact Or.inr (by simp)
      · exact Or.inr (by simp [hr])

/-- Recombining the two halves of a split URN gives back the URN. -/
theorem splitColon1_recombine {u a b : String}
    (h : splitColon1 u = some (a, b)) : a ++ ":" ++ b = u := by
  unfold splitColon1 at h
  cases hs : splitColon1Aux u.data with
  | none => rw [hs] at h; simp at h
  | some p =>
      rw [hs] at h
      simp only [Option.map_some'] at h
      injection h with h1
      obtain ⟨h2, h3⟩ := Prod.ext_iff.mp h1
      subst h2; subst h3
      have hrec := splitColon1Aux_recombine (l := u.data) (a := p.1)
        (b := p.2) (by rw [hs])
      cases u with
      | mk data =>
          show String.mk (p.1 ++ [':'] ++ p.2) = String.mk data
          exact congrArg String.mk (by simpa using hrec)

/-- The scheme half of a split URN holds no colon. -/
theorem splitColon1_scheme_no_colon {u a b : String}
    (h : splitColon1 u = some (a, b)) : ':' ∉ a.data := by
  unfold splitColon1 at h
  cases hs : splitColon1Aux u.data with
  | none => rw [hs] at h; simp at h
  | some p =>
      rw [hs] at h
      simp only [Option.map_some'] at h
      injection h with h1
      obtain ⟨h2, h3⟩ := Prod.ext_iff.mp h1
      subst h2
      exact splitColon1Aux_no_colon (l := u.data) (by rw [hs])

/-- Splitting a freshly recombined URN returns its two halves, provided the
scheme half holds no colon. -/
theorem splitColon1_recombined (a b : String) (h : ':' ∉ a.data) :
    splitColon1 (a ++ ":" ++ b) = some (a, b) := by
  unfold splitColon1
  have hd : (a ++ ":" ++ b).data = a.data ++ ':' :: b.data := by
    rw [String.data_append, String.data_append]
    simp [show (":" : String).data = [':'] from rfl]
  rw [hd, splitColon1Aux_of_no_colon b.data h]
  simp

/-- A successful URN parse is what `filterMap splitColon1` collects. -/
theorem filterMap_eq_of_parseUrns {urns : List String}
    {ps : List (String × String)} (h : parseUrns urns = some ps) :
    urns.filterMap splitColon1 = ps := by
  induction urns generalizing ps with
  | nil =>
      unfold parseUrns at h
      injection h with h1
  | cons u rest ih =>
      unfold parseUrns at h
      cases hu : splitColon1 u with
      | none => rw [hu] at h; simp at h
      | some p =>
          rw [hu] at h
          cases hr : parseUrns rest with
          | none => rw [hr] at h; simp at h
          | some qs =>
              rw [hr] at h
              injection h with h1
              have hstep : List.filterMap splitColon1 (u :: rest) =
                  p :: List.filterMap splitColon1 rest := by
                simp [List.filterMap_cons, hu]
              rw [hstep, ih hr, h1]

/-- Recombining every entry of a successful URN parse restores the list. -/
theorem parseUrns_map_recombine {urns : List String}
    {ps : List (String × String)} (h : parseUrns urns = some ps) :
    ps.map (fun p => p.1 ++ ":" ++ p.2) = urns := by
  induction urns generalizing ps with
  | nil =>
      unfold parseUrns at h
      injection h with h1
      rw [← h1]
      rfl
  | cons u rest ih =>
      unfold parseUrns at h
      cases hu : splitColon1 u with
      | none => rw [hu] at h; simp at h
      | some p =>
          rw [hu] at h
          cases hr : parseUrns rest with
          | none => rw [hr] at h; simp at h
          | some qs =>
              rw [hr] at h
              injection h with h1
              rw [← h1, List.map_cons, ih hr,
                splitColon1_recombine (show splitColon1 u = some (p.1, p.2)
                  from by rw [hu])]

/-- Every scheme of a successful URN parse holds no colon. -/
theorem parseUrns_scheme_no_colon {urns : List String}
    {ps : List (String × String)} (h : parseUrns urns = some ps) :
    ∀ p ∈ ps, ':' ∉ p.1.data := by
  induction urns generalizing ps with
  | nil =>
      unfold parseUrns at h
      injection h with h1
      rw [← h1]
      simp
  | cons u rest ih =>
      unfold parseUrns at h
      cases hu : splitColon1 u with
      | none => rw [hu] at h; simp at h
      | some p =>
          rw [hu] at h
          cases hr : parseUrns rest with
          | none => rw [hr] at h; simp at h
          | some qs =>
              rw [hr] at h
              injection h with h1
              rw [← h1]
              intro q hq
              rcases List.mem_cons.mp hq with hh | hh
              · subst hh
                exact splitColon1_scheme_no_colon
                  (show splitColon1 u = some (q.1, q.2) from by
                    rw [hu])
              · exact ih hr q hh

/-- Splitting the recombined entries of a pair list with colon-free keys
recovers the pair list. -/
theorem filterMap_split_map_recombine (D : List (String × String))
    (h : ∀ p ∈ D, ':' ∉ p.1.data) :
    (D.map (fun p => p.1 ++ ":" ++ p.2)).filterMap splitColon1 = D := by
  induction D with
  | nil => rfl
  | cons p rest ih =>
      rw [List.map_cons, List.filterMap_cons,
        splitColon1_recombined p.1 p.2 (h p (List.mem_cons_self p rest))]
      rw [ih (fun q hq => h q (List.mem_cons_of_mem p hq))]

/-- The path stored by the first URN of the given scheme (on a side whose
schemes are duplicate-free, the scheme's unique URN). -/
def urnPath (urns : List String) (s : String) : Option String :=
  ((urns.filterMap splitColon1).find? (fun p => p.1 = s)).map (fun p => p.2)

/-- The path stored by the last-listed URN of the given scheme: what the
dict comprehension of `temba_merge_contacts` retains for the scheme. -/
def lastUrnPath (urns : List String) (s : String) : Option String :=
  dgetLast (urns.filterMap splitColon1) s

/-- Unpacking a successful merge: the uuids matched, both URN lists parsed,
and the result is the record the source builds. -/
theorem temba_merge_ok_elim {first second m : TembaContact}
    {sets : List (List String)}
    (h : temba_merge_contacts first second sets = .ok m) :
    first.uuid = second.uuid ∧
    ∃ fps sps, parseUrns first.urns = some fps ∧
      parseUrns second.urns = some sps ∧
      m = { uuid := first.uuid, name := first.name,
            urns := (dictUpdate (dictOf sps) (dictOf fps)).map
              (fun p => p.1 ++ ":" ++ p.2),
            fields := dictUpdate second.fields first.fields,
            groups := mergedGroups first.groups second.groups sets } := by
  unfold temba_merge_contacts at h
  by_cases hu : first.uuid ≠ second.uuid
  · rw [if_pos hu] at h
    exact absurd h (by simp)
  · rw [if_neg hu] at h
    cases hf : parseUrns first.urns with
    | none => rw [hf] at h; exact absurd h (by simp)
    | some fps =>
        rw [hf] at h
        cases hs : parseUrns second.urns with
        | none => rw [hs] at h; exact absurd h (by simp)
        | some sps =>
            rw [hs] at h
            injection h with h1
            exact ⟨not_not.mp hu, fps, sps, rfl, rfl, h1.symm⟩

/-- The merged URN list of a successful merge: its parsed schemes are
unique, and each scheme's path is the last URN of that scheme on the first
contact when one exists, else on the second. -/
theorem merged_urns_lookup {first second m : TembaContact}
    {sets : List (List String)}
    (hm : temba_merge_contacts first second sets = .ok m) :
    ((m.urns.filterMap splitColon1).map Prod.fst).Nodup ∧
    (∀ u ∈ m.urns, (splitColon1 u).isSome) ∧
    (∀ s, urnPath m.urns s =
      (lastUrnPath first.urns s).or (lastUrnPath second.urns s)) := by
  obtain ⟨huu, fps, sps, hf, hs, hmm⟩ := temba_merge_ok_elim hm
  have hfree : ∀ p ∈ dictUpdate (dictOf sps) (dictOf fps), ':' ∉ p.1.data := by
    intro p hp
    have hk : p.1 ∈ (dictUpdate (dictOf sps) (dictOf fps)).map Prod.fst :=
      List.mem_map.mpr ⟨p, hp, rfl⟩
    have step : ∀ ps : List (String × String),
        (∀ q ∈ ps, ':' ∉ q.1.data) →
        p.1 ∈ (dictOf ps).map Prod.fst → ':' ∉ p.1.data := by
      intro ps hps hmem
      rcases keys_dictUpdate_subset [] ps p.1 hmem with hnil | hin
      · simp at hnil
      · rcases List.mem_map.mp hin with ⟨q, hq, hqk⟩
        exact hqk ▸ hps q hq
    rcases keys_dictUpdate_subset (dictOf sps) (dictOf fps) p.1 hk with
      hbase | hupd
    · exact step sps (parseUrns_scheme_no_colon hs) hbase
    · exact step fps (parseUrns_scheme_no_colon hf) hupd
  have hurns : m.urns = (dictUpdate (dictOf sps) (dictOf fps)).map
      (fun p => p.1 ++ ":" ++ p.2) := by rw [hmm]
  have hsplit : m.urns.filterMap splitColon1 =
      dictUpdate (dictOf sps) (dictOf fps) := by
    rw [hurns]
    exact filterMap_split_map_recombine _ hfree
  refine ⟨?_, ?_, ?_⟩
  · rw [hsplit]
    exact keys_nodup_dictUpdate (keys_nodup_dictOf sps) (dictOf fps)
  · intro u hu
    rw [hurns] at hu
    rcases List.mem_map.mp hu with ⟨p, hp, hpu⟩
    rw [← hpu, splitColon1_recombined p.1 p.2 (hfree p hp)]
    rfl
  · intro s
    show ((m.urns.filterMap splitColon1).find? (fun p => p.1 = s)).map
        (fun p => p.2) = _
    rw [hsplit]
    have h1 : ((dictUpdate (dictOf sps) (dictOf fps)).find?
        (fun p => p.1 = s)).map (fun p => p.2) =
        dget (dictUpdate (dictOf sps) (dictOf fps)) s := rfl
    rw [h1, dget_dictUpdate, dgetLast_eq_dget_of_nodup (keys_nodup_dictOf fps),
      dget_dictOf, dget_dictOf]
    unfold lastUrnPath
    rw [filterMap_eq_of_parseUrns hf, filterMap_eq_of_parseUrns hs]

/-- C9: a successful merge carries at most one URN per scheme: every merged
URN parses, the parsed schemes are pairwise distinct, each scheme's path is
the last-listed URN for that scheme on the winning side (first contact
preferred), and the merged list can be strictly shorter than both inputs,
as the concrete duplicate-scheme instance shows. -/
theorem temba_merge_one_urn_per_scheme
    (first second m : TembaContact) (sets : List (List String))
    (hm : temba_merge_contacts first second sets = .ok m) :
    ((m.urns.filterMap splitColon1).map Prod.fst).Nodup ∧
    (∀ u ∈ m.urns, (splitColon1 u).isSome) ∧
    (∀ s, urnPath m.urns s =
      (lastUrnPath first.urns s).or (lastUrnPath second.urns s)) ∧
    ((temba_merge_contacts ⟨"u", none, ["tel:1", "tel:2"], [], []⟩
        ⟨"u", none, ["tel:7", "tel:8"], [], []⟩ []).map
      (fun mm => mm.urns) = .ok ["tel:2"]) ∧
    (["tel:2"] : List String).length < (["tel:1", "tel:2"] : List String).length ∧
    (["tel:2"] : List String).length < (["tel:7", "tel:8"] : List String).length := by
  obtain ⟨h1, h2, h3⟩ := merged_urns_lookup hm
  exact ⟨h1, h2, h3, by decide, by decide, by decide⟩

/-- C9 witness: the theorem applied to a concrete merge with a duplicated
scheme on the first contact. -/
theorem temba_merge_one_urn_per_scheme_witness :
    (((⟨"u", none, ["tel:2", "mail:x"], [], []⟩ :
      TembaContact).urns.filterMap splitColon1).map Prod.fst).Nodup :=
  (temba_merge_one_urn_per_scheme
    ⟨"u", none, ["tel:1", "tel:2", "mail:x"], [], []⟩
    ⟨"u", none, ["tel:9"], [], []⟩
    ⟨"u", none, ["tel:2", "mail:x"], [], []⟩ [] (by decide)).1

/-- C5: a successful merge keeps the shared uuid, the first contact's name,
the key-wise union of the fields with the first contact's value winning,
and for every scheme the first contact's URN when it has one, else the
second's (each side's schemes assumed unique, as produced by a dict). -/
theorem temba_merge_priority
    (first second m : TembaContact) (sets : List (List String))
    (hm : temba_merge_contacts first second sets = .ok m)
    (hfk : (first.fields.map Prod.fst).Nodup)
    (hfs : ((first.urns.filterMap splitColon1).map Prod.fst).Nodup)
    (hss : ((second.urns.filterMap splitColon1).map Prod.fst).Nodup) :
    m.uuid = first.uuid ∧ m.uuid = second.uuid ∧ m.name = first.name ∧
    (∀ k, dget m.fields k = (dget first.fields k).or (dget second.fields k)) ∧
    (∀ s, urnPath m.urns s =
      (urnPath first.urns s).or (urnPath second.urns s)) := by
  obtain ⟨huu, fps, sps, hf, hs, hmm⟩ := temba_merge_ok_elim hm
  obtain ⟨hn1, hn2, hlook⟩ := merged_urns_lookup hm
  refine ⟨by rw [hmm], by rw [hmm]; exact huu, by rw [hmm], ?_, ?_⟩
  · intro k
    have hfields : m.fields = dictUpdate second.fields first.fields := by
      rw [hmm]
    rw [hfields, dget_dictUpdate, dgetLast_eq_dget_of_nodup hfk]
  · intro s
    rw [hlook s]
    unfold lastUrnPath urnPath
    rw [dgetLast_eq_dget_of_nodup hfs, dgetLast_eq_dget_of_nodup hss]
    rfl

/-- C5 witness: the theorem applied to a concrete merge, at scheme tel. -/
theorem temba_merge_priority_witness :
    urnPath (⟨"u", some "Ann", ["tel:2", "mail:x"],
        ([] : List GroupRef), [("age", "3")]⟩ : TembaContact).urns "tel" =
      (urnPath ["tel:2"] "tel").or (urnPath ["tel:9", "mail:x"] "tel") :=
  (temba_merge_priority
    ⟨"u", some "Ann", ["tel:2"], [], [("age", "3")]⟩
    ⟨"u", some "Bob", ["tel:9", "mail:x"], [], []⟩
    ⟨"u", some "Ann", ["tel:2", "mail:x"], [], [("age", "3")]⟩ []
    (by decide) (by decide) (by decide) (by decide)).2.2.2.2 "tel"

/-- The specification's per-category selection: the first group of the
first contact whose uuid belongs to the category, else the first such group
of the second contact, else nothing. -/
def categorySelection (fg sg : List GroupRef) (cat : List String) :
    List GroupRef :=
  match fg.find? (fun g => decide (g.uuid ∈ cat)) with
  | some g => [g]
  | none =>
      match sg.find? (fun g => decide (g.uuid ∈ cat)) with
      | some g => [g]
      | none => []

/-- The first merge phase in closed form: the per-category selections in
category order, with every category uuid ignored afterwards. -/
theorem mergePhase1_eq (fg sg : List GroupRef) (sets : List (List String)) :
    mergePhase1 fg sg sets =
      ((sets.map (categorySelection fg sg)).flatten, sets.flatten) := by
  induction sets with
  | nil => rfl
  | cons cat rest ih =>
      show (_ ++ (mergePhase1 fg sg rest).1, cat ++ (mergePhase1 fg sg rest).2)
        = _
      rw [ih]
      rfl

/-- At most one group is selected per category. -/
theorem categorySelection_length_le (fg sg : List GroupRef)
    (cat : List String) : (categorySelection fg sg cat).length ≤ 1 := by
  unfold categorySelection
  cases fg.find? (fun g => decide (g.uuid ∈ cat)) with
  | some g => simp
  | none =>
      cases sg.find? (fun g => decide (g.uuid ∈ cat)) with
      | some g => simp
      | none => simp

/-- A selected group comes from one of the contacts and belongs to the
category. -/
theorem categorySelection_mem {fg sg : List GroupRef} {cat : List String}
    {g : GroupRef} (h : g ∈ categorySelection fg sg cat) :
    (g ∈ fg ∨ g ∈ sg) ∧ g.uuid ∈ cat := by
  unfold categorySelection at h
  cases hf : fg.find? (fun g => decide (g.uuid ∈ cat)) with
  | some g0 =>
      rw [hf] at h
      rcases List.mem_singleton.mp h with rfl
      exact ⟨Or.inl (List.mem_of_find?_eq_some hf),
        by simpa using List.find?_some hf⟩
  | none =>
      rw [hf] at h
      cases hs : sg.find? (fun g => decide (g.uuid ∈ cat)) with
      | some g0 =>
          rw [hs] at h
          rcases List.mem_singleton.mp h with rfl
          exact ⟨Or.inr (List.mem_of_find?_eq_some hs),
            by simpa using List.find?_some hs⟩
      | none =>
          rw [hs] at h
          simp at h

/-- Phase two only grows the accumulated group list. -/
theorem addRemaining_mem_mono {gs : List GroupRef}
    {st : List GroupRef × List String} {g : GroupRef} (h : g ∈ st.1) :
    g ∈ (addRemaining gs st).1 := by
  induction gs generalizing st with
  | nil => exact h
  | cons g0 rest ih =>
      unfold addRemaining
      by_cases h0 : g0.uuid ∈ st.2
      · rw [if_pos h0]
        exact ih h
      · rw [if_neg h0]
        exact ih (by simp [h])

/-- Everything phase two accumulates comes from the start state or the
walked list. -/
theorem addRemaining_subset {gs : List GroupRef}
    {st : List GroupRef × List String} {g : GroupRef}
    (h : g ∈ (addRemaining gs st).1) : g ∈ st.1 ∨ g ∈ gs := by
  induction gs generalizing st with
  | nil => exact Or.inl h
  | cons g0 rest ih =>
      unfold addRemaining at h
      by_cases h0 : g0.uuid ∈ st.2
      · rw [if_pos h0] at h
        rcases ih h with h1 | h1
        · exact Or.inl h1
        · exact Or.inr (List.mem_cons_of_mem _ h1)
      · rw [if_neg h0] at h
        rcases ih h with h1 | h1
        · rcases List.mem_append.mp h1 with h2 | h2
          · exact Or.inl h2
          · rw [List.mem_singleton.mp h2]
            exact Or.inr (List.mem_cons_self g0 rest)
        · exact Or.inr (List.mem_cons_of_mem _ h1)

/-- Phase two appends every walked group whose uuid is neither ignored at
entry nor shared with another walked group. -/
theorem addRemaining_adds {gs : List GroupRef}
    {st : List GroupRef × List String} {g : GroupRef}
    (hmem : g ∈ gs) (hnodup : (uuidsOf gs).Nodup) (hnotin : g.uuid ∉ st.2) :
    g ∈ (addRemaining gs st).1 := by
  induction gs generalizing st with
  | nil => simp at hmem
  | cons g0 rest ih =>
      have hnd : (uuidsOf rest).Nodup :=
        (List.nodup_cons.mp (by simpa [uuidsOf] using hnodup)).2
      unfold addRemaining
      rcases List.mem_cons.mp hmem with rfl | hmem'
      · rw [if_neg hnotin]
        exact addRemaining_mem_mono (by simp)
      · by_cases h0 : g0.uuid ∈ st.2
        · rw [if_pos h0]
          exact ih hmem' hnd hnotin
        · rw [if_neg h0]
          apply ih hmem' hnd
          intro hc
          rcases List.mem_append.mp hc with hc1 | hc2
          · exact hnotin hc1
          · have he : g.uuid = g0.uuid := List.mem_singleton.mp hc2
            have hgr : g.uuid ∈ uuidsOf rest :=
              List.mem_map.mpr ⟨g, hmem', rfl⟩
            rw [he] at hgr
            exact (List.nodup_cons.mp
              (by simpa [uuidsOf] using hnodup)).1 hgr

/-- Invariant of the group accumulation: the accumulated uuids are unique
and all ignored. -/
def GoodState (st : List GroupRef × List String) : Prop :=
  (uuidsOf st.1).Nodup ∧ ∀ g ∈ st.1, g.uuid ∈ st.2

/-- Phase two preserves the accumulation invariant. -/
theorem addRemaining_good {gs : List GroupRef}
    {st : List GroupRef × List String} (h : GoodState st) :
    GoodState (addRemaining gs st) := by
  induction gs generalizing st with
  | nil => exact h
  | cons g0 rest ih =>
      unfold addRemaining
      by_cases h0 : g0.uuid ∈ st.2
      · rw [if_pos h0]
        exact ih h
      · rw [if_neg h0]
        apply ih
        constructor
        · show (uuidsOf (st.1 ++ [g0])).Nodup
          rw [show uuidsOf (st.1 ++ [g0]) = uuidsOf st.1 ++ [g0.uuid] from
            by simp [uuidsOf]]
          rw [List.nodup_append]
          refine ⟨h.1, List.nodup_singleton _, ?_⟩
          intro x hx hx0
          rcases List.mem_singleton.mp hx0 with rfl
          rcases List.mem_map.mp hx with ⟨g, hg, hge⟩
          exact h0 (hge ▸ h.2 g hg)
        · intro g hg
          rcases List.mem_append.mp hg with h1 | h1
          · exact List.mem_append.mpr (Or.inl (h.2 g h1))
          · rcases List.mem_singleton.mp h1 with rfl
            exact List.mem_append.mpr (Or.inr (by simp))

/-- The closed form of phase one satisfies the accumulation invariant when
the categories are pairwise disjoint. -/
theorem phase1_good (fg sg : List GroupRef) (sets : List (List String))
    (hdisj : sets.Pairwise (fun s t => ∀ u ∈ s, u ∉ t)) :
    GoodState ((sets.map (categorySelection fg sg)).flatten, sets.flatten) := by
  induction sets with
  | nil => exact ⟨by simp [uuidsOf], by simp⟩
  | cons cat rest ih =>
      obtain ⟨hd1, hd2⟩ := List.pairwise_cons.mp hdisj
      obtain ⟨ihn, ihm⟩ := ih hd2
      constructor
      · show (uuidsOf (categorySelection fg sg cat ++
          (rest.map (categorySelection fg sg)).flatten)).Nodup
        rw [show uuidsOf (categorySelection fg sg cat ++
            (rest.map (categorySelection fg sg)).flatten) =
            uuidsOf (categorySelection fg sg cat) ++
            uuidsOf ((rest.map (categorySelection fg sg)).flatten) from
          by simp [uuidsOf]]
        rw [List.nodup_append]
        refine ⟨?_, ihn, ?_⟩
        · cases hsel : categorySelection fg sg cat with
          | nil => simp [uuidsOf]
          | cons g0 tail =>
              have hlen := categorySelection_length_le fg sg cat
              rw [hsel] at hlen
              cases tail with
              | nil => simp [uuidsOf]
              | cons g1 t2 => simp at hlen
        · intro x hx1 hx2
          rcases List.mem_map.mp hx1 with ⟨g, hg, hge⟩
          rcases List.mem_map.mp hx2 with ⟨g2, hg2, hge2⟩
          have hcat : x ∈ cat := hge ▸ (categorySelection_mem hg).2
          have hrest : x ∈ rest.flatten := hge2 ▸ ihm g2 hg2
          rcases List.mem_flatten.mp hrest with ⟨t, ht, hxt⟩
          exact hd1 t ht x hcat hxt
      · intro g hg
        rcases List.mem_append.mp hg with h1 | h1
        · exact List.mem_append.mpr (Or.inl (categorySelection_mem h1).2)
        · exact List.mem_append.mpr (Or.inr (ihm g h1))

/-- C4: the merged group list of a successful merge is built in two phases:
per-category selections in category list order (first matching group of the
first contact, else of the second, at most one per category, all category
uuids resolved regardless), then the unresolved groups of the first contact
in order, then those of the second; with category {A, B}, the first contact
in A and the second in B, the merged result contains A and not B. -/
theorem temba_merge_group_phases (first second m : TembaContact)
    (sets : List (List String))
    (hm : temba_merge_contacts first second sets = .ok m) :
    m.groups = (addRemaining second.groups (addRemaining first.groups
      ((sets.map (categorySelection first.groups second.groups)).flatten,
       sets.flatten))).1 ∧
    (∀ cat, (categorySelection first.groups second.groups cat).length ≤ 1) ∧
    (∀ cat g, g ∈ categorySelection first.groups second.groups cat →
      (g ∈ first.groups ∨ g ∈ second.groups) ∧ g.uuid ∈ cat) ∧
    ((temba_merge_contacts ⟨"u", none, [], [⟨"A", "ga"⟩], []⟩
        ⟨"u", none, [], [⟨"B", "gb"⟩], []⟩ [["A", "B"]]).map
      (fun mm => mm.groups) = .ok [⟨"A", "ga"⟩]) := by
  obtain ⟨huu, fps, sps, hf, hs, hmm⟩ := temba_merge_ok_elim hm
  refine ⟨?_, fun cat => categorySelection_length_le _ _ cat,
    fun cat g hg => categorySelection_mem hg, by decide⟩
  rw [hmm]
  show mergedGroups first.groups second.groups sets = _
  unfold mergedGroups
  rw [mergePhase1_eq]

/-- C4 witness: the two-phase closed form evaluated on a concrete merge. -/
theorem temba_merge_group_phases_witness :
    ([⟨"A", "ga"⟩, ⟨"C", "gc"⟩] : List GroupRef) =
      (addRemaining ([⟨"B", "gb"⟩] : List GroupRef) (addRemaining
        ([⟨"A", "ga"⟩, ⟨"C", "gc"⟩] : List GroupRef)
        ((([["A", "B"]] : List (List String)).map (categorySelection
          [⟨"A", "ga"⟩, ⟨"C", "gc"⟩] [⟨"B", "gb"⟩])).flatten,
         ([["A", "B"]] : List (List String)).flatten))).1 :=
  (temba_merge_group_phases
    ⟨"u", none, [], [⟨"A", "ga"⟩, ⟨"C", "gc"⟩], []⟩
    ⟨"u", none, [], [⟨"B", "gb"⟩], []⟩
    ⟨"u", none, [], [⟨"A", "ga"⟩, ⟨"C", "gc"⟩], []⟩ [["A", "B"]]
    (by decide)).1

/-- C10: when the mutually exclusive categories are pairwise disjoint (and
the inputs' group lists are duplicate-free), the merged group list of a
successful merge carries each uuid at most once; without disjointness the
per-category phase can duplicate a group, as the concrete overlapping
categories instance shows. -/
theorem temba_merge_groups_no_dup (first second m : TembaContact)
    (sets : List (List String))
    (hm : temba_merge_contacts first second sets = .ok m)
    (hdisj : sets.Pairwise (fun s t => ∀ u ∈ s, u ∉ t))
    (h1 : (uuidsOf first.groups).Nodup)
    (h2 : (uuidsOf second.groups).Nodup) :
    (uuidsOf m.groups).Nodup ∧
    ((temba_merge_contacts ⟨"u", none, [], [⟨"A", "ga"⟩], []⟩
        ⟨"u", none, [], [], []⟩ [["A"], ["A"]]).map
      (fun mm => uuidsOf mm.groups) = .ok ["A", "A"]) := by
  obtain ⟨huu, fps, sps, hf, hs, hmm⟩ := temba_merge_ok_elim hm
  refine ⟨?_, by decide⟩
  rw [hmm]
  show (uuidsOf (mergedGroups first.groups second.groups sets)).Nodup
  unfold mergedGroups
  rw [mergePhase1_eq]
  exact (addRemaining_good (addRemaining_good
    (phase1_good first.groups second.groups sets hdisj))).1

/-- C10 witness: duplicate-freedom evaluated on a concrete merge with
disjoint categories. -/
theorem temba_merge_groups_no_dup_witness :
    (uuidsOf ([⟨"A", "ga"⟩, ⟨"B", "gb"⟩] : List GroupRef)).Nodup :=
  (temba_merge_groups_no_dup
    ⟨"u", none, [], [⟨"A", "ga"⟩], []⟩
    ⟨"u", none, [], [⟨"B", "gb"⟩], []⟩
    ⟨"u", none, [], [⟨"A", "ga"⟩, ⟨"B", "gb"⟩], []⟩ [["A"], ["B"]]
    (by decide) (by decide) (by decide) (by decide)).1

/-- Updating with fresh, duplicate-free keys appends the entries. -/
theorem dictUpdate_append {base : PyDict} {ps : List (String × String)}
    (hdisj : ∀ p ∈ ps, p.1 ∉ base.map Prod.fst)
    (hnod : (ps.map Prod.fst).Nodup) :
    dictUpdate base ps = base ++ ps := by
  induction ps generalizing base with
  | nil => simp [dictUpdate]
  | cons p rest ih =>
      show dictUpdate (dinsert base p.1 p.2) rest = base ++ p :: rest
      have hany : base.any (fun q => q.1 = p.1) = false := by
        cases hb : base.any (fun q => q.1 = p.1) with
        | false => rfl
        | true =>
            rcases List.any_eq_true.mp hb with ⟨q, hq, hqe⟩
            have hqk : p.1 ∈ base.map Prod.fst :=
              List.mem_map.mpr ⟨q, hq, by simpa using hqe⟩
            exact absurd hqk (hdisj p (List.mem_cons_self p rest))
      have hins : dinsert base p.1 p.2 = base ++ [p] := by
        unfold dinsert
        rw [if_neg (by rw [hany]; simp)]
      rw [hins, ih ?hd ?hn]
      · rw [List.append_assoc]
        rfl
      case hd =>
        intro q hq
        rw [List.map_append]
        intro hqmem
        rcases List.mem_append.mp hqmem with hq1 | hq2
        · exact hdisj q (List.mem_cons_of_mem p hq) hq1
        · have hq1 : q.1 = p.1 := by simpa using hq2
          have hmemu : q.1 ∈ rest.map Prod.fst :=
            List.mem_map.mpr ⟨q, hq, rfl⟩
          rw [hq1] at hmemu
          exact (List.nodup_cons.mp hnod).1 hmemu
      case hn => exact (List.nodup_cons.mp hnod).2

/-- A pair list with duplicate-free keys already is the dict it builds. -/
theorem dictOf_eq_self {ps : List (String × String)}
    (h : (ps.map Prod.fst).Nodup) : dictOf ps = ps := by
  unfold dictOf
  rw [dictUpdate_append (by simp) h]
  rfl

/-- Assigning a key its present value changes nothing (unique keys). -/
theorem dinsert_self {d : PyDict} {kk v : String}
    (hnod : (d.map Prod.fst).Nodup) (hget : dget d kk = some v) :
    dinsert d kk v = d := by
  have hmem : (kk, v) ∈ d := mem_of_dget hget
  have hany : d.any (fun q => q.1 = kk) = true :=
    List.any_eq_true.mpr ⟨(kk, v), hmem, by simp⟩
  unfold dinsert
  rw [if_pos hany]
  have hcongr : ∀ p ∈ d, (if p.1 = kk then ((kk, v) : String × String)
      else p) = p := by
    intro p hp
    by_cases hpk : p.1 = kk
    · rw [if_pos hpk]
      have hv := dget_of_mem_nodup hnod hp
      rw [hpk, hget] at hv
      injection hv with hv
      rw [← hpk, hv]
    · rw [if_neg hpk]
  rw [List.map_congr_left hcongr]
  simp

/-- Updating a dict with its own lookups changes nothing. -/
theorem dictUpdate_self {base : PyDict} {upd : List (String × String)}
    (hnod : (base.map Prod.fst).Nodup)
    (hsub : ∀ p ∈ upd, dget base p.1 = some p.2) :
    dictUpdate base upd = base := by
  induction upd with
  | nil => rfl
  | cons p rest ih =>
      show dictUpdate (dinsert base p.1 p.2) rest = base
      rw [dinsert_self hnod (hsub p (List.mem_cons_self p rest))]
      exact ih (fun q hq => hsub q (List.mem_cons_of_mem p hq))

/-- C6 counterexample: merging a snapshot with itself under the category
{A, B} drops group B, so the merged group set is strictly smaller than the
snapshot's. -/
theorem temba_merge_self_counterexample :
    (temba_merge_contacts ⟨"u", none, [], [⟨"A", "ga"⟩, ⟨"B", "gb"⟩], []⟩
        ⟨"u", none, [], [⟨"A", "ga"⟩, ⟨"B", "gb"⟩], []⟩ [["A", "B"]]).map
      (fun mm => uuidsOf mm.groups) = .ok ["A"] ∧
    "B" ∈ uuidsOf ([⟨"A", "ga"⟩, ⟨"B", "gb"⟩] : List GroupRef) ∧
    "B" ∉ (["A"] : List String) := by
  refine ⟨by decide, by decide, by decide⟩

/-- C6 (amended): a successful merge of a snapshot with itself is
equivalent to the snapshot — same uuid, name, URN list, field dict, and the
same groups as a set — provided the snapshot's URN schemes are
duplicate-free, its field keys are duplicate-free (both automatic for data
produced by Python dicts), its group uuids are duplicate-free, and no
mutually exclusive category contains more than one of its groups. -/
theorem temba_merge_self_equivalent (x m : TembaContact)
    (sets : List (List String))
    (hm : temba_merge_contacts x x sets = .ok m)
    (hsch : ((x.urns.filterMap splitColon1).map Prod.fst).Nodup)
    (hfk : (x.fields.map Prod.fst).Nodup)
    (hcat : ∀ cat ∈ sets,
      (x.groups.filter (fun g => decide (g.uuid ∈ cat))).length ≤ 1)
    (hgn : (uuidsOf x.groups).Nodup) :
    m.uuid = x.uuid ∧ m.name = x.name ∧ m.urns = x.urns ∧
    m.fields = x.fields ∧ (∀ g, g ∈ m.groups ↔ g ∈ x.groups) := by
  obtain ⟨huu, fps, sps, hf, hs, hmm⟩ := temba_merge_ok_elim hm
  have hkeys : (fps.map Prod.fst).Nodup := by
    rw [← filterMap_eq_of_parseUrns hf]
    exact hsch
  have hpseq : sps = fps := by
    rw [hf] at hs
    injection hs with hs1
    exact hs1.symm
  have hDof : dictOf fps = fps := dictOf_eq_self hkeys
  have hDD : dictUpdate (dictOf sps) (dictOf fps) = fps := by
    rw [hpseq, hDof]
    exact dictUpdate_self hkeys (fun p hp2 => dget_of_mem_nodup hkeys hp2)
  refine ⟨by rw [hmm], by rw [hmm], ?_, ?_, ?_⟩
  · show m.urns = x.urns
    rw [hmm]
    show (dictUpdate (dictOf sps) (dictOf fps)).map (fun p =>
      p.1 ++ ":" ++ p.2) = x.urns
    rw [hDD]
    exact parseUrns_map_recombine hf
  · show m.fields = x.fields
    rw [hmm]
    exact dictUpdate_self hfk (fun p hp2 => dget_of_mem_nodup hfk hp2)
  · intro g
    rw [hmm]
    show g ∈ mergedGroups x.groups x.groups sets ↔ g ∈ x.groups
    unfold mergedGroups
    rw [mergePhase1_eq]
    constructor
    · intro hmem
      rcases addRemaining_subset hmem with hmem1 | hmem1
      · rcases addRemaining_subset hmem1 with hmem2 | hmem2
        · rcases List.mem_flatten.mp hmem2 with ⟨l, hl, hgl⟩
          rcases List.mem_map.mp hl with ⟨cat, hcat2, hle⟩
          exact ((categorySelection_mem (hle ▸ hgl)).1).elim id id
        · exact hmem2
      · exact hmem1
    · intro hmem
      by_cases hres : g.uuid ∈ sets.flatten
      · rcases List.mem_flatten.mp hres with ⟨cat, hcatmem, hgcat⟩
        have hsel : g ∈ categorySelection x.groups x.groups cat := by
          unfold categorySelection
          cases hfind : x.groups.find? (fun g => decide (g.uuid ∈ cat)) with
          | none =>
              have hnix := List.find?_eq_none.mp hfind g hmem
              simp [hgcat] at hnix
          | some g0 =>
              have hg0mem := List.mem_of_find?_eq_some hfind
              have hg0p := List.find?_some hfind
              have hgf : g ∈ x.groups.filter
                  (fun g => decide (g.uuid ∈ cat)) :=
                List.mem_filter.mpr ⟨hmem, by simp [hgcat]⟩
              have hg0f : g0 ∈ x.groups.filter
                  (fun g => decide (g.uuid ∈ cat)) :=
                List.mem_filter.mpr ⟨hg0mem, hg0p⟩
              have hlen := hcat cat hcatmem
              have hgeq : g = g0 := by
                cases hfl : x.groups.filter
                    (fun g => decide (g.uuid ∈ cat)) with
                | nil =>
                    rw [hfl] at hgf
                    simp at hgf
                | cons a tail =>
                    cases tail with
                    | nil =>
                        rw [hfl] at hgf hg0f
                        rw [List.mem_singleton.mp hgf,
                          List.mem_singleton.mp hg0f]
                    | cons b t2 =>
                        rw [hfl] at hlen
                        simp at hlen
              rw [hgeq]
              simp
        have hpick : g ∈
            (sets.map (categorySelection x.groups x.groups)).flatten :=
          List.mem_flatten.mpr ⟨categorySelection x.groups x.groups cat,
            List.mem_map.mpr ⟨cat, hcatmem, rfl⟩, hsel⟩
        exact addRemaining_mem_mono (addRemaining_mem_mono hpick)
      · exact addRemaining_mem_mono (addRemaining_adds hmem hgn hres)

/-- C6 witness: the amended equivalence evaluated on a concrete
self-merge. -/
theorem temba_merge_self_equivalent_witness :
    (⟨"u", some "Ann", ["tel:1"], [⟨"A", "ga"⟩, ⟨"C", "gc"⟩],
      [("k", "v")]⟩ : TembaContact).urns =
    (⟨"u", some "Ann", ["tel:1"], [⟨"A", "ga"⟩, ⟨"C", "gc"⟩],
      [("k", "v")]⟩ : TembaContact).urns :=
  (temba_merge_self_equivalent
    ⟨"u", some "Ann", ["tel:1"], [⟨"A", "ga"⟩, ⟨"C", "gc"⟩], [("k", "v")]⟩
    ⟨"u", some "Ann", ["tel:1"], [⟨"A", "ga"⟩, ⟨"C", "gc"⟩], [("k", "v")]⟩
    [["A", "B"]] (by decide) (by decide) (by decide) (by decide)
    (by decide)).2.2.1

/-- A found record carries the looked-up uuid and lies in the database. -/
theorem dbFind_some {D : Type} {db : List (LocalRecord D)} {u : String}
    {r : LocalRecord D} (h : dbFind db u = some r) :
    r.uuid = u ∧ r ∈ db := by
  have h1 := List.find?_some h
  have h2 := List.mem_of_find?_eq_some h
  exact ⟨by simpa using h1, h2⟩

/-- With unique uuids, lookup finds exactly the member row. -/
theorem dbFind_of_mem_nodup {D : Type} {db : List (LocalRecord D)}
    {r : LocalRecord D} (h : (db.map (fun x => x.uuid)).Nodup)
    (hr : r ∈ db) : dbFind db r.uuid = some r := by
  induction db with
  | nil => simp at hr
  | cons q rest ih =>
      rcases List.mem_cons.mp hr with rfl | hq
      · simp [dbFind, List.find?]
      · have hne : q.uuid ≠ r.uuid := by
          intro he
          have hm : r.uuid ∈ rest.map (fun x => x.uuid) :=
            List.mem_map.mpr ⟨r, hq, rfl⟩
          rw [← he] at hm
          exact (List.nodup_cons.mp h).1 hm
        have hd : (decide (q.uuid = r.uuid)) = false := by simp [hne]
        simp only [dbFind, List.find?, hd]
        exact ih (List.nodup_cons.mp h).2 hq

/-- Failed lookup means no row carries the uuid. -/
theorem dbFind_eq_none {D : Type} {db : List (LocalRecord D)} {u : String}
    (h : dbFind db u = none) : ∀ r ∈ db, r.uuid ≠ u := by
  intro r hr he
  have := List.find?_eq_none.mp h r hr
  simp [he] at this

/-- Saving a row of another uuid leaves a lookup unchanged. -/
theorem dbFind_dbSave_ne {D : Type} (db : List (LocalRecord D))
    (cu : String) (r2 : LocalRecord D) (u : String) (hne : u ≠ cu)
    (hr2 : r2.uuid = cu) :
    dbFind (dbSave db cu r2) u = dbFind db u := by
  induction db with
  | nil => rfl
  | cons q rest ih =>
      by_cases hq : q.uuid = cu
      · have hnew : (decide (r2.uuid = u)) = false := by
          simp only [decide_eq_false_iff_not]
          rw [hr2]
          exact fun hh => hne hh.symm
        have hold : (decide (q.uuid = u)) = false := by
          simp only [decide_eq_false_iff_not]
          rw [hq]
          exact fun hh => hne hh.symm
        simp only [dbSave, List.map_cons, if_pos hq, dbFind, List.find?,
          hnew, hold]
        exact ih
      · simp only [dbSave, List.map_cons, if_neg hq, dbFind, List.find?]
        by_cases hqu : q.uuid = u
        · simp [hqu]
        · have hd : (decide (q.uuid = u)) = false := by simp [hqu]
          rw [hd]
          exact ih

/-- Saving replaces the row the lookup finds. -/
theorem dbFind_dbSave_eq {D : Type} {db : List (LocalRecord D)}
    {cu : String} {r r2 : LocalRecord D} (h : dbFind db cu = some r)
    (hr2 : r2.uuid = cu) : dbFind (dbSave db cu r2) cu = some r2 := by
  induction db with
  | nil => simp [dbFind] at h
  | cons q rest ih =>
      by_cases hq : q.uuid = cu
      · have hnew : (decide (r2.uuid = cu)) = true := by simp [hr2]
        simp only [dbSave, List.map_cons, if_pos hq, dbFind, List.find?,
          hnew]
      · have hd : (decide (q.uuid = cu)) = false := by simp [hq]
        simp only [dbFind, List.find?, hd] at h
        simp only [dbSave, List.map_cons, if_neg hq, dbFind, List.find?, hd]
        exact ih h

/-- Saving a row with the same uuid keeps the uuid column unchanged. -/
theorem dbSave_uuids {D : Type} (db : List (LocalRecord D)) (cu : String)
    (r2 : LocalRecord D) (hr2 : r2.uuid = cu) :
    (dbSave db cu r2).map (fun r => r.uuid) = db.map (fun r => r.uuid) := by
  unfold dbSave
  rw [List.map_map]
  apply List.map_congr_left
  intro q _
  by_cases hq : q.uuid = cu
  · simp [hq, hr2]
  · simp [hq]

/-- Lookup commutes with a uuid-preserving row transformation. -/
theorem dbFind_map_pres {D : Type} (db : List (LocalRecord D))
    (f : LocalRecord D → LocalRecord D) (hf : ∀ r, (f r).uuid = r.uuid)
    (u : String) : dbFind (db.map f) u = (dbFind db u).map f := by
  induction db with
  | nil => rfl
  | cons q rest ih =>
      by_cases hq : q.uuid = u
      · have h1 : ((f q).uuid = u) := by rw [hf, hq]
        simp [dbFind, List.find?, hq, h1]
      · have h1 : (decide ((f q).uuid = u)) = false := by simp [hf, hq]
        have h2 : (decide (q.uuid = u)) = false := by simp [hq]
        simp only [List.map_cons, dbFind, List.find?, h1, h2]
        exact ih

/-- A uuid-preserving row transformation keeps the uuid column. -/
theorem db_map_pres_uuids {D : Type} (db : List (LocalRecord D))
    (f : LocalRecord D → LocalRecord D) (hf : ∀ r, (f r).uuid = r.uuid) :
    (db.map f).map (fun r => r.uuid) = db.map (fun r => r.uuid) := by
  rw [List.map_map]
  apply List.map_congr_left
  intro q _
  exact hf q

/-- Appending a row: lookups fall back to the new row. -/
theorem dbFind_append_single {D : Type} (db : List (LocalRecord D))
    (r0 : LocalRecord D) (u : String) :
    dbFind (db ++ [r0]) u =
      (dbFind db u).or (if r0.uuid = u then some r0 else none) := by
  unfold dbFind
  rw [List.find?_append]
  by_cases h0 : r0.uuid = u
  · simp [List.find?, h0]
  · have hd : (decide (r0.uuid = u)) = false := by simp [h0]
    simp [List.find?, hd, h0]

/-- The sync invariant for a remote snapshot of the active query: when the
adapter keeps the record, an active local row exists whose projection
compares clean against the snapshot; when the adapter rejects it, any local
row is inactive. -/
def SyncedContact {D K : Type} (A : SyncAdapter D K) (inc_urns : Bool)
    (fields groups : Option (List String)) (db : List (LocalRecord D))
    (c : TembaContact) : Prop :=
  match A.kwargs_from_temba c with
  | some _ => ∃ r, dbFind db c.uuid = some r ∧ r.is_active = true ∧
      temba_compare_contacts c (A.as_temba r) inc_urns fields groups =
        .ok none
  | none => ∀ r, dbFind db c.uuid = some r → r.is_active = false

/-- The sync invariant for a snapshot of the deleted query: any local row
with its uuid is inactive. -/
def SyncedDeleted {D : Type} (db : List (LocalRecord D))
    (c : TembaContact) : Prop :=
  ∀ r, dbFind db c.uuid = some r → r.is_active = false

/-- The invariant only depends on the lookup at the snapshot's uuid. -/
theorem syncedContact_transfer {D K : Type} {A : SyncAdapter D K}
    {inc_urns : Bool} {fields groups : Option (List String)}
    {db db2 : List (LocalRecord D)} {c : TembaContact}
    (he : dbFind db2 c.uuid = dbFind db c.uuid)
    (h : SyncedContact A inc_urns fields groups db c) :
    SyncedContact A inc_urns fields groups db2 c := by
  unfold SyncedContact at h ⊢
  cases hk : A.kwargs_from_temba c with
  | some k =>
      rw [hk] at h
      obtain ⟨r, h1, h2, h3⟩ := h
      exact ⟨r, he ▸ h1, h2, h3⟩
  | none =>
      rw [hk] at h
      intro r hr
      exact h r (he ▸ hr)

/-- A synced snapshot leaves the per-record step of the first pass
untouched: no write, no invalidation, no count. -/
theorem stepStable {D K : Type} (A : SyncAdapter D K) (inc_urns : Bool)
    (fields groups : Option (List String)) (db : List (LocalRecord D))
    (inv : List String) (cnt : SyncCounts) (c : TembaContact)
    (h : SyncedContact A inc_urns fields groups db c) :
    syncProcessIncoming A inc_urns fields groups (dbFind db) (db, inv, cnt)
      c = .ok (db, inv, cnt) := by
  unfold SyncedContact at h
  cases hk : A.kwargs_from_temba c with
  | some k =>
      rw [hk] at h
      obtain ⟨r, h1, h2, h3⟩ := h
      simp [syncProcessIncoming, hk, h1, h3, h2, Bind.bind, Except.bind,
        pure, Except.pure]
  | none =>
      rw [hk] at h
      cases hf : dbFind db c.uuid with
      | none =>
          simp [syncProcessIncoming, hk, hf, pure, Except.pure]
      | some r =>
          have hr := h r hf
          simp [syncProcessIncoming, hk, hf, hr, pure, Except.pure]

/-- A batch of synced snapshots leaves the batch fold untouched. -/
theorem foldStable {D K : Type} (A : SyncAdapter D K) (inc_urns : Bool)
    (fields groups : Option (List String)) (db : List (LocalRecord D))
    (batch : List TembaContact)
    (h : ∀ c ∈ batch, SyncedContact A inc_urns fields groups db c)
    (inv : List String) (cnt : SyncCounts) :
    batch.foldlM (syncProcessIncoming A inc_urns fields groups (dbFind db))
      (db, inv, cnt) = .ok (db, inv, cnt) := by
  induction batch with
  | nil => rfl
  | cons c rest ih =>
      rw [List.foldlM_cons,
        stepStable A inc_urns fields groups db inv cnt c
          (h c (List.mem_cons_self c rest))]
      show rest.foldlM _ (db, inv, cnt) = _
      exact ih (fun c2 hc2 => h c2 (List.mem_cons_of_mem c hc2))

/-- A batch of synced snapshots leaves `syncBatch` untouched. -/
theorem syncBatchStable {D K : Type} (A : SyncAdapter D K) (inc_urns : Bool)
    (fields groups : Option (List String)) (db : List (LocalRecord D))
    (batch : List TembaContact)
    (h : ∀ c ∈ batch, SyncedContact A inc_urns fields groups db c)
    (cnt : SyncCounts) :
    syncBatch A inc_urns fields groups (db, cnt) batch = .ok (db, cnt) := by
  simp only [syncBatch]
  rw [foldStable A inc_urns fields groups db batch h [] cnt]
  show Except.ok (db.map (fun r =>
    if r.uuid ∈ ([] : List String) then { r with is_active := false }
    else r), cnt) = .ok (db, cnt)
  have hmap : ∀ r ∈ db, (if r.uuid ∈ ([] : List String) then
      { r with is_active := false } else r) = r := by
    intro r _
    simp
  rw [List.map_congr_left hmap]
  simp

/-- All active batches synced: the first pass leaves everything untouched. -/
theorem activeStableFold {D K : Type} (A : SyncAdapter D K) (inc_urns : Bool)
    (fields groups : Option (List String)) (db : List (LocalRecord D))
    (batches : List (List TembaContact))
    (h : ∀ c ∈ batches.flatten, SyncedContact A inc_urns fields groups db c)
    (cnt : SyncCounts) :
    batches.foldlM (syncBatch A inc_urns fields groups) (db, cnt) =
      .ok (db, cnt) := by
  induction batches with
  | nil => rfl
  | cons b rest ih =>
      rw [List.foldlM_cons,
        syncBatchStable A inc_urns fields groups db b
          (fun c hc => h c (by simp [hc])) cnt]
      show rest.foldlM _ (db, cnt) = _
      exact ih (fun c hc => h c (by
        rcases List.mem_flatten.mp hc with ⟨l, hl, hcl⟩
        exact List.mem_flatten.mpr ⟨l, List.mem_cons_of_mem b hl, hcl⟩))

/-- A deleted batch whose uuids are all inactive locally deactivates
nothing and counts nothing. -/
theorem syncDeletedBatchStable {D : Type} (db : List (LocalRecord D))
    (cnt : SyncCounts) (batch : List TembaContact)
    (hn : (db.map (fun r => r.uuid)).Nodup)
    (h : ∀ c ∈ batch, SyncedDeleted db c) :
    syncDeletedBatch (db, cnt) batch = (db, cnt) := by
  simp only [syncDeletedBatch]
  have hno : ∀ r ∈ db, ¬ (r.uuid ∈ batch.map (fun c => c.uuid) ∧
      r.is_active = true) := by
    intro r hr hand
    obtain ⟨hm, ha⟩ := hand
    rcases List.mem_map.mp hm with ⟨c, hc, hcu⟩
    have hfind : dbFind db c.uuid = some r := by
      rw [hcu]
      exact dbFind_of_mem_nodup hn hr
    rw [h c hc r hfind] at ha
    exact absurd ha (by simp)
  have hfil : db.filter (fun r =>
      decide (r.uuid ∈ batch.map (fun c => c.uuid)) && r.is_active) = [] := by
    rw [List.filter_eq_nil_iff]
    intro r hr
    intro hb
    rw [Bool.and_eq_true] at hb
    exact hno r hr ⟨by simpa using hb.1, hb.2⟩
  have hmap : ∀ r ∈ db, (if r.uuid ∈ batch.map (fun c => c.uuid) ∧
      r.is_active then { r with is_active := false } else r) = r := by
    intro r hr
    rw [if_neg (fun hand => hno r hr ⟨hand.1, hand.2⟩)]
  rw [hfil, List.map_congr_left hmap]
  simp

/-- All deleted batches synced: the second pass leaves everything
untouched. -/
theorem deletedFoldStable {D : Type} (db : List (LocalRecord D))
    (cnt : SyncCounts) (batches : List (List TembaContact))
    (hn : (db.map (fun r => r.uuid)).Nodup)
    (h : ∀ c ∈ batches.flatten, SyncedDeleted db c) :
    batches.foldl syncDeletedBatch (db, cnt) = (db, cnt) := by
  induction batches with
  | nil => rfl
  | cons b rest ih =>
      rw [List.foldl_cons,
        syncDeletedBatchStable db cnt b hn (fun c hc => h c (by simp [hc]))]
      exact ih (fun c hc => h c (by
        rcases List.mem_flatten.mp hc with ⟨l, hl, hcl⟩
        exact List.mem_flatten.mpr ⟨l, List.mem_cons_of_mem b hl, hcl⟩))

/-- A fully synced database makes the whole sync a no-op returning zero
counts. -/
theorem sync_pull_contacts_stable {D K : Type} (A : SyncAdapter D K)
    (inc_urns : Bool) (fields groups : Option (List String))
    (db : List (LocalRecord D))
    (activeBatches deletedBatches : List (List TembaContact))
    (hn : (db.map (fun r => r.uuid)).Nodup)
    (hact : ∀ c ∈ activeBatches.flatten,
      SyncedContact A inc_urns fields groups db c)
    (hdel : ∀ c ∈ deletedBatches.flatten, SyncedDeleted db c) :
    sync_pull_contacts A inc_urns fields groups db activeBatches
      deletedBatches = .ok (db, ⟨0, 0, 0⟩) := by
  simp only [sync_pull_contacts]
  rw [activeStableFold A inc_urns fields groups db activeBatches hact
    ⟨0, 0, 0⟩]
  show Except.ok (deletedBatches.foldl syncDeletedBatch (db, ⟨0, 0, 0⟩)) = _
  rw [deletedFoldStable db ⟨0, 0, 0⟩ deletedBatches hn hdel]

theorem except_bind_ok {α β : Type} {x : Except String α}
    {f : α → Except String β} {b : β} (h : x >>= f = .ok b) :
    ∃ a, x = .ok a ∧ f a = .ok b := by
  cases x with
  | error e => exact absurd h (by simp [Bind.bind, Except.bind])
  | ok a => exact ⟨a, rfl, by simpa [Bind.bind, Except.bind] using h⟩

theorem except_pure_ok {α : Type} {a b : α}
    (h : (pure a : Except String α) = .ok b) : a = b := by
  simpa [pure, Except.pure] using h

/-- The state of one batch contact after its step of the first pass: the
adapter keeps it and an active, cleanly comparing, not-invalidated row
stands at its uuid; or the adapter rejects it and its row is inactive or
marked invalid. -/
def PostC {D K : Type} (A : SyncAdapter D K) (inc_urns : Bool)
    (fields groups : Option (List String)) (db : List (LocalRecord D))
    (inv : List String) (c : TembaContact) : Prop :=
  match A.kwargs_from_temba c with
  | some _ => ∃ r, dbFind db c.uuid = some r ∧ r.is_active = true ∧
      temba_compare_contacts c (A.as_temba r) inc_urns fields groups =
        .ok none ∧ c.uuid ∉ inv
  | none => (∀ r, dbFind db c.uuid = some r → r.is_active = false) ∨
      c.uuid ∈ inv

/-- `PostC` moves to any state with the same lookup, a larger invalid set,
and no new invalidation of this uuid. -/
theorem PostC_transfer {D K : Type} {A : SyncAdapter D K} {inc_urns : Bool}
    {fields groups : Option (List String)}
    {db db2 : List (LocalRecord D)} {inv inv2 : List String}
    {c : TembaContact} (he : dbFind db2 c.uuid = dbFind db c.uuid)
    (hmono : ∀ u ∈ inv, u ∈ inv2) (hanti : c.uuid ∈ inv2 → c.uuid ∈ inv)
    (h : PostC A inc_urns fields groups db inv c) :
    PostC A inc_urns fields groups db2 inv2 c := by
  unfold PostC at h ⊢
  cases hk : A.kwargs_from_temba c with
  | some k =>
      rw [hk] at h
      obtain ⟨r, h1, h2, h3, h4⟩ := h
      exact ⟨r, he ▸ h1, h2, h3, fun hc => h4 (hanti hc)⟩
  | none =>
      rw [hk] at h
      rcases h with h | h
      · exact Or.inl (fun r hr => h r (he ▸ hr))
      · exact Or.inr (hmono _ h)

/-- Effect of one step of the first pass: uuids stay unique, only the
snapshot's own uuid can be touched, the invalid list grows by at most that
uuid (and only when the adapter rejected the snapshot), and the snapshot
ends in its `PostC` state. -/
theorem stepEstablish {D K : Type} {A : SyncAdapter D K} {inc_urns : Bool}
    {fields groups : Option (List String)}
    (hup : ∀ (c : TembaContact) (kk : K) (r : LocalRecord D),
      A.kwargs_from_temba c = some kk → r.uuid = c.uuid →
      ({ A.applyKwargs r kk with is_active := true }).uuid = c.uuid ∧
      temba_compare_contacts c
        (A.as_temba { A.applyKwargs r kk with is_active := true })
        inc_urns fields groups = .ok none)
    (hcr : ∀ (c : TembaContact) (kk : K),
      A.kwargs_from_temba c = some kk →
      (A.createFrom kk).uuid = c.uuid ∧
      (A.createFrom kk).is_active = true ∧
      temba_compare_contacts c (A.as_temba (A.createFrom kk)) inc_urns
        fields groups = .ok none)
    {db₀ db : List (LocalRecord D)} {inv : List String} {cnt : SyncCounts}
    {c : TembaContact}
    {st1 : List (LocalRecord D) × List String × SyncCounts}
    (hfs : dbFind db c.uuid = dbFind db₀ c.uuid)
    (hIdb : (db.map (fun r => r.uuid)).Nodup)
    (h : syncProcessIncoming A inc_urns fields groups (dbFind db₀)
      (db, inv, cnt) c = .ok st1) :
    ((st1.1.map (fun r => r.uuid)).Nodup) ∧
    (∀ u, u ≠ c.uuid → dbFind st1.1 u = dbFind db u) ∧
    (st1.2.1 = inv ∨ st1.2.1 = inv ++ [c.uuid]) ∧
    (c.uuid ∉ inv → PostC A inc_urns fields groups st1.1 st1.2.1 c) := by
  simp only [syncProcessIncoming] at h
  cases hf : dbFind db₀ c.uuid with
  | some existing =>
      rw [hf] at h
      have hfe : dbFind db c.uuid = some existing := by rw [hfs, hf]
      have hexu : existing.uuid = c.uuid := (dbFind_some hfe).1
      cases hk : A.kwargs_from_temba c with
      | some kk =>
          rw [hk] at h
          dsimp only at h
          obtain ⟨d, hd, hif⟩ := except_bind_ok h
          by_cases hcond : d.isSome = true ∨ existing.is_active = false
          · rw [if_pos hcond] at hif
            have hst := except_pure_ok hif
            obtain ⟨huuid, hcmp⟩ := hup c kk existing hk hexu
            rw [← hst]
            refine ⟨?_, ?_, Or.inl rfl, ?_⟩
            · show ((dbSave db c.uuid _).map (fun r => r.uuid)).Nodup
              rw [dbSave_uuids db c.uuid _ huuid]
              exact hIdb
            · intro u hu
              exact dbFind_dbSave_ne db c.uuid _ u hu huuid
            · intro hninv
              unfold PostC
              rw [hk]
              exact ⟨_, dbFind_dbSave_eq hfe huuid, rfl, hcmp, hninv⟩
          · rw [if_neg hcond] at hif
            have hst := except_pure_ok hif
            rw [← hst]
            push_neg at hcond
            have hdn : d = none := by
              cases d with
              | none => rfl
              | some v => simp at hcond
            have hact : existing.is_active = true := by
              cases hb : existing.is_active with
              | true => rfl
              | false => exact absurd hb hcond.2
            refine ⟨hIdb, fun u _ => rfl, Or.inl rfl, ?_⟩
            intro hninv
            unfold PostC
            rw [hk]
            rw [hdn] at hd
            exact ⟨existing, hfe, hact, hd, hninv⟩
      | none =>
          rw [hk] at h
          dsimp only at h
          by_cases hact : existing.is_active = true
          · rw [if_pos hact] at h
            have hst := except_pure_ok h
            rw [← hst]
            refine ⟨hIdb, fun u _ => rfl, ?_, ?_⟩
            · rw [hexu]
              exact Or.inr rfl
            · intro _
              unfold PostC
              rw [hk]
              refine Or.inr ?_
              rw [hexu]
              simp
          · rw [if_neg hact] at h
            have hst := except_pure_ok h
            rw [← hst]
            refine ⟨hIdb, fun u _ => rfl, Or.inl rfl, ?_⟩
            intro _
            unfold PostC
            rw [hk]
            refine Or.inl ?_
            intro r hr
            rw [hfe] at hr
            injection hr with hr
            rw [← hr]
            cases hb : existing.is_active with
            | true => exact absurd hb hact
            | false => rfl
  | none =>
      rw [hf] at h
      have hfe : dbFind db c.uuid = none := by rw [hfs, hf]
      cases hk : A.kwargs_from_temba c with
      | some kk =>
          rw [hk] at h
          dsimp only at h
          have hst := except_pure_ok h
          rw [← hst]
          obtain ⟨huuid, hactive, hcmp⟩ := hcr c kk hk
          have hnotin : c.uuid ∉ db.map (fun r => r.uuid) := by
            intro hm
            rcases List.mem_map.mp hm with ⟨r, hr, hru⟩
            exact dbFind_eq_none hfe r hr hru
          refine ⟨?_, ?_, Or.inl rfl, ?_⟩
          · rw [List.map_append]
            rw [List.nodup_append]
            refine ⟨hIdb, by simp, ?_⟩
            intro x hx hx2
            rcases List.mem_singleton.mp (by simpa using hx2) with rfl
            rw [huuid] at hx
            exact hnotin hx
          · intro u hu
            rw [dbFind_append_single]
            rw [if_neg (fun hh => hu (huuid.symm.trans hh).symm)]
            exact Option.or_none
          · intro hninv
            unfold PostC
            rw [hk]
            refine ⟨A.createFrom kk, ?_, hactive, hcmp, hninv⟩
            rw [dbFind_append_single, hfe, if_pos huuid, Option.none_or]
      | none =>
          rw [hk] at h
          dsimp only at h
          have hst := except_pure_ok h
          rw [← hst]
          refine ⟨hIdb, fun u _ => rfl, Or.inl rfl, ?_⟩
          intro _
          unfold PostC
          rw [hk]
          refine Or.inl ?_
          intro r hr
          rw [hfe] at hr
          exact absurd hr (by simp)

/-- Effect of the first-pass fold over a batch suffix: uuids stay unique,
untouched uuids keep their lookups, the invalid list only grows and only by
batch uuids, and every processed snapshot ends in its `PostC` state. -/
theorem batchFoldEstablish {D K : Type} {A : SyncAdapter D K}
    {inc_urns : Bool} {fields groups : Option (List String)}
    (hup : ∀ (c : TembaContact) (kk : K) (r : LocalRecord D),
      A.kwargs_from_temba c = some kk → r.uuid = c.uuid →
      ({ A.applyKwargs r kk with is_active := true }).uuid = c.uuid ∧
      temba_compare_contacts c
        (A.as_temba { A.applyKwargs r kk with is_active := true })
        inc_urns fields groups = .ok none)
    (hcr : ∀ (c : TembaContact) (kk : K),
      A.kwargs_from_temba c = some kk →
      (A.createFrom kk).uuid = c.uuid ∧
      (A.createFrom kk).is_active = true ∧
      temba_compare_contacts c (A.as_temba (A.createFrom kk)) inc_urns
        fields groups = .ok none)
    (db₀ : List (LocalRecord D)) :
    ∀ (todo : List TembaContact) (db : List (LocalRecord D))
      (inv : List String) (cnt : SyncCounts)
      (st' : List (LocalRecord D) × List String × SyncCounts),
      (todo.map (fun c => c.uuid)).Nodup →
      ((db.map (fun r => r.uuid)).Nodup) →
      (∀ c ∈ todo, dbFind db c.uuid = dbFind db₀ c.uuid) →
      (∀ u ∈ inv, ∀ c ∈ todo, u ≠ c.uuid) →
      todo.foldlM (syncProcessIncoming A inc_urns fields groups
        (dbFind db₀)) (db, inv, cnt) = .ok st' →
      ((st'.1.map (fun r => r.uuid)).Nodup ∧
       (∀ u, (∀ c ∈ todo, c.uuid ≠ u) → dbFind st'.1 u = dbFind db u) ∧
       (∀ u ∈ inv, u ∈ st'.2.1) ∧
       (∀ u ∈ st'.2.1, u ∈ inv ∨ ∃ c ∈ todo, c.uuid = u) ∧
       (∀ c ∈ todo, PostC A inc_urns fields groups st'.1 st'.2.1 c)) := by
  intro todo
  induction todo with
  | nil =>
      intro db inv cnt st' _ hIdb _ _ h
      have hst := except_pure_ok h
      rw [← hst]
      exact ⟨hIdb, fun u _ => rfl, fun u hu => hu, fun u hu => Or.inl hu,
        by simp⟩
  | cons c rest ih =>
      intro db inv cnt st' hbn hIdb hframe hinv h
      rw [List.foldlM_cons] at h
      obtain ⟨st1, hstep, hrest⟩ := except_bind_ok h
      obtain ⟨st1db, st1inv, st1cnt⟩ := st1
      obtain ⟨hn1, hfr1, hinv1, hpost1⟩ := stepEstablish hup hcr
        (hframe c (List.mem_cons_self c rest)) hIdb hstep
      dsimp only at hn1 hfr1 hinv1 hpost1
      have hcnotin : c.uuid ∉ (rest.map (fun c2 => c2.uuid)) :=
        (List.nodup_cons.mp (by simpa using hbn)).1
      have hrestn : (rest.map (fun c2 => c2.uuid)).Nodup :=
        (List.nodup_cons.mp (by simpa using hbn)).2
      have hne_rest : ∀ c2 ∈ rest, c2.uuid ≠ c.uuid := by
        intro c2 hc2 he
        exact hcnotin (List.mem_map.mpr ⟨c2, hc2, he⟩)
      have hinv1mono : ∀ u ∈ inv, u ∈ st1inv := by
        intro u hu
        rcases hinv1 with he | he
        · rw [he]
          exact hu
        · rw [he]
          exact List.mem_append.mpr (Or.inl hu)
      have hinv1anti : ∀ u ∈ st1inv, u ∈ inv ∨ u = c.uuid := by
        intro u hu
        rcases hinv1 with he | he
        · rw [he] at hu
          exact Or.inl hu
        · rw [he] at hu
          rcases List.mem_append.mp hu with h1 | h1
          · exact Or.inl h1
          · exact Or.inr (List.mem_singleton.mp h1)
      obtain ⟨hn', hfr', hmono', hinv', hpost'⟩ := ih st1db st1inv st1cnt st'
        hrestn hn1
        (fun c2 hc2 => by
          rw [hfr1 c2.uuid (hne_rest c2 hc2)]
          exact hframe c2 (List.mem_cons_of_mem c hc2))
        (fun u hu c2 hc2 => by
          rcases hinv1anti u hu with h1 | h1
          · exact hinv u h1 c2 (List.mem_cons_of_mem c hc2)
          · rw [h1]
            exact fun hh => hne_rest c2 hc2 hh.symm)
        hrest
      refine ⟨hn', ?_, ?_, ?_, ?_⟩
      · intro u hu
        rw [hfr' u (fun c2 hc2 => hu c2 (List.mem_cons_of_mem c hc2)),
          hfr1 u (fun hh => hu c (List.mem_cons_self c rest) hh.symm)]
      · intro u hu
        exact hmono' u (hinv1mono u hu)
      · intro u hu
        rcases hinv' u hu with h1 | h1
        · rcases hinv1anti u h1 with h2 | h2
          · exact Or.inl h2
          · exact Or.inr ⟨c, List.mem_cons_self c rest, h2.symm⟩
        · rcases h1 with ⟨c2, hc2, he⟩
          exact Or.inr ⟨c2, List.mem_cons_of_mem c hc2, he⟩
      · intro c2 hc2
        rcases List.mem_cons.mp hc2 with rfl | hc2'
        · have hninv : c2.uuid ∉ inv := by
            intro hc
            exact hinv c2.uuid hc c2 (List.mem_cons_self c2 rest) rfl
          refine PostC_transfer
            (hfr' c2.uuid (fun c3 hc3 => hne_rest c3 hc3)) hmono' ?_
            (hpost1 hninv)
          intro hc
          rcases hinv' c2.uuid hc with h1 | h1
          · exact h1
          · rcases h1 with ⟨c3, hc3, he⟩
            exact absurd he (hne_rest c3 hc3)
        · exact hpost' c2 hc2'

/-- Effect of a whole first-pass batch including its bulk deactivation:
uuids stay unique, uuids outside the batch keep their lookups, and every
batch snapshot ends synced. -/
theorem syncBatchEstablish {D K : Type} {A : SyncAdapter D K}
    {inc_urns : Bool} {fields groups : Option (List String)}
    (hup : ∀ (c : TembaContact) (kk : K) (r : LocalRecord D),
      A.kwargs_from_temba c = some kk → r.uuid = c.uuid →
      ({ A.applyKwargs r kk with is_active := true }).uuid = c.uuid ∧
      temba_compare_contacts c
        (A.as_temba { A.applyKwargs r kk with is_active := true })
        inc_urns fields groups = .ok none)
    (hcr : ∀ (c : TembaContact) (kk : K),
      A.kwargs_from_temba c = some kk →
      (A.createFrom kk).uuid = c.uuid ∧
      (A.createFrom kk).is_active = true ∧
      temba_compare_contacts c (A.as_temba (A.createFrom kk)) inc_urns
        fields groups = .ok none)
    {db : List (LocalRecord D)} {cnt : SyncCounts}
    {batch : List TembaContact}
    {out : List (LocalRecord D) × SyncCounts}
    (hbn : (batch.map (fun c => c.uuid)).Nodup)
    (hIdb : (db.map (fun r => r.uuid)).Nodup)
    (h : syncBatch A inc_urns fields groups (db, cnt) batch = .ok out) :
    ((out.1.map (fun r => r.uuid)).Nodup) ∧
    (∀ u, (∀ c ∈ batch, c.uuid ≠ u) → dbFind out.1 u = dbFind db u) ∧
    (∀ c ∈ batch, SyncedContact A inc_urns fields groups out.1 c) := by
  simp only [syncBatch] at h
  obtain ⟨res, hfold, hpure⟩ := except_bind_ok h
  obtain ⟨rdb, rinv, rcnt⟩ := res
  have hout := except_pure_ok hpure
  dsimp only at hout hfold
  obtain ⟨hn, hfr, _, hinvsub, hpost⟩ := batchFoldEstablish hup hcr db batch
    db [] cnt (rdb, rinv, rcnt) hbn hIdb (fun _ _ => rfl) (by simp) hfold
  dsimp only at hn hfr hinvsub hpost
  have hinvbatch : ∀ u ∈ rinv, ∃ c ∈ batch, c.uuid = u := by
    intro u hu
    rcases hinvsub u hu with h1 | h1
    · simp at h1
    · exact h1
  have hfpres : ∀ r : LocalRecord D,
      ((if r.uuid ∈ rinv then { r with is_active := false } else r) :
        LocalRecord D).uuid = r.uuid := by
    intro r
    by_cases hr : r.uuid ∈ rinv
    · rw [if_pos hr]
    · rw [if_neg hr]
  have hdbout : out.1 = rdb.map (fun r =>
      if r.uuid ∈ rinv then { r with is_active := false } else r) := by
    rw [← hout]
  refine ⟨?_, ?_, ?_⟩
  · rw [hdbout, db_map_pres_uuids _ _ hfpres]
    exact hn
  · intro u hu
    rw [hdbout, dbFind_map_pres _ _ hfpres u, hfr u hu]
    cases hg : dbFind db u with
    | none => rfl
    | some r =>
        have hru : r.uuid = u := (dbFind_some hg).1
        have hnotinv : r.uuid ∉ rinv := by
          intro hr
          rcases hinvbatch r.uuid hr with ⟨c, hc, hcu⟩
          exact hu c hc (hcu.trans hru)
        simp only [Option.map_some', if_neg hnotinv]
  · intro c hc
    have hp := hpost c hc
    unfold PostC at hp
    unfold SyncedContact
    cases hk : A.kwargs_from_temba c with
    | some k =>
        rw [hk] at hp
        obtain ⟨r, h1, h2, h3, h4⟩ := hp
        refine ⟨r, ?_, h2, h3⟩
        rw [hdbout, dbFind_map_pres _ _ hfpres c.uuid, h1]
        have hru : r.uuid = c.uuid := (dbFind_some h1).1
        simp only [Option.map_some', if_neg (hru ▸ h4)]
    | none =>
        rw [hk] at hp
        intro r2 hr2
        rw [hdbout, dbFind_map_pres _ _ hfpres c.uuid] at hr2
        cases hg : dbFind rdb c.uuid with
        | none =>
            rw [hg] at hr2
            exact absurd hr2 (by simp)
        | some r =>
            rw [hg] at hr2
            simp only [Option.map_some'] at hr2
            injection hr2 with hr2
            have hru : r.uuid = c.uuid := (dbFind_some hg).1
            rcases hp with hp | hp
            · rw [← hr2]
              by_cases hrv : r.uuid ∈ rinv
              · rw [if_pos hrv]
              · rw [if_neg hrv]
                exact hp r hg
            · rw [← hr2, if_pos (hru ▸ hp)]

/-- Effect of the whole first pass: uuids stay unique, uuids outside the
active response keep their lookups, and every active snapshot ends
synced. -/
theorem activeFoldEstablish {D K : Type} {A : SyncAdapter D K}
    {inc_urns : Bool} {fields groups : Option (List String)}
    (hup : ∀ (c : TembaContact) (kk : K) (r : LocalRecord D),
      A.kwargs_from_temba c = some kk → r.uuid = c.uuid →
      ({ A.applyKwargs r kk with is_active := true }).uuid = c.uuid ∧
      temba_compare_contacts c
        (A.as_temba { A.applyKwargs r kk with is_active := true })
        inc_urns fields groups = .ok none)
    (hcr : ∀ (c : TembaContact) (kk : K),
      A.kwargs_from_temba c = some kk →
      (A.createFrom kk).uuid = c.uuid ∧
      (A.createFrom kk).is_active = true ∧
      temba_compare_contacts c (A.as_temba (A.createFrom kk)) inc_urns
        fields groups = .ok none) :
    ∀ (batches : List (List TembaContact)) (db : List (LocalRecord D))
      (cnt : SyncCounts) (out : List (LocalRecord D) × SyncCounts),
      ((batches.flatten.map (fun c => c.uuid)).Nodup) →
      ((db.map (fun r => r.uuid)).Nodup) →
      batches.foldlM (syncBatch A inc_urns fields groups) (db, cnt) =
        .ok out →
      ((out.1.map (fun r => r.uuid)).Nodup ∧
       (∀ u, (∀ c ∈ batches.flatten, c.uuid ≠ u) →
         dbFind out.1 u = dbFind db u) ∧
       (∀ c ∈ batches.flatten,
         SyncedContact A inc_urns fields groups out.1 c)) := by
  intro batches
  induction batches with
  | nil =>
      intro db cnt out _ hIdb h
      have hst := except_pure_ok h
      rw [← hst]
      exact ⟨hIdb, fun u _ => rfl, by simp⟩
  | cons b rest ih =>
      intro db cnt out hdn hIdb h
      rw [List.foldlM_cons] at h
      obtain ⟨st1, hbatch, hrest⟩ := except_bind_ok h
      obtain ⟨st1db, st1cnt⟩ := st1
      have hflat : (b :: rest).flatten = b ++ rest.flatten := rfl
      rw [hflat] at hdn
      rw [List.map_append, List.nodup_append] at hdn
      obtain ⟨hbn, hrn, hdisjbr⟩ := hdn
      obtain ⟨hn1, hfr1, hsync1⟩ := syncBatchEstablish hup hcr hbn hIdb
        hbatch
      dsimp only at hn1 hfr1 hsync1
      obtain ⟨hn', hfr', hsync'⟩ := ih st1db st1cnt out hrn hn1 hrest
      have hdisj2 : ∀ c ∈ b, ∀ c2 ∈ rest.flatten, c2.uuid ≠ c.uuid := by
        intro c hc c2 hc2 he
        exact hdisjbr (List.mem_map.mpr ⟨c, hc, rfl⟩)
          (List.mem_map.mpr ⟨c2, hc2, he⟩)
      refine ⟨hn', ?_, ?_⟩
      · intro u hu
        rw [hflat] at hu
        rw [hfr' u (fun c2 hc2 => hu c2 (List.mem_append.mpr (Or.inr hc2))),
          hfr1 u (fun c hc => hu c (List.mem_append.mpr (Or.inl hc)))]
      · intro c hc
        rw [hflat] at hc
        rcases List.mem_append.mp hc with h1 | h1
        · exact syncedContact_transfer
            (hfr' c.uuid (fun c2 hc2 => hdisj2 c h1 c2 hc2)) (hsync1 c h1)
        · exact hsync' c h1

/-- Effect of one deleted-pass batch: uuids stay unique, uuids outside the
batch keep their lookups, every batch uuid ends inactive, and rows already
inactive stay inactive. -/
theorem syncDeletedBatch_facts {D : Type} (db : List (LocalRecord D))
    (cnt : SyncCounts) (batch : List TembaContact)
    (hIdb : (db.map (fun r => r.uuid)).Nodup) :
    (((syncDeletedBatch (db, cnt) batch).1.map (fun r => r.uuid)).Nodup) ∧
    (∀ u, (∀ c ∈ batch, c.uuid ≠ u) →
      dbFind (syncDeletedBatch (db, cnt) batch).1 u = dbFind db u) ∧
    (∀ c ∈ batch, SyncedDeleted (syncDeletedBatch (db, cnt) batch).1 c) ∧
    (∀ u, (∀ r, dbFind db u = some r → r.is_active = false) →
      (∀ r, dbFind (syncDeletedBatch (db, cnt) batch).1 u = some r →
        r.is_active = false)) := by
  have hdb1 : (syncDeletedBatch (db, cnt) batch).1 = db.map (fun r =>
      if r.uuid ∈ batch.map (fun c => c.uuid) ∧ r.is_active then
        { r with is_active := false } else r) := rfl
  have hfpres : ∀ r : LocalRecord D,
      ((if r.uuid ∈ batch.map (fun c => c.uuid) ∧ r.is_active then
        { r with is_active := false } else r) : LocalRecord D).uuid =
        r.uuid := by
    intro r
    by_cases hr : r.uuid ∈ batch.map (fun c => c.uuid) ∧ r.is_active
    · rw [if_pos hr]
    · rw [if_neg hr]
  refine ⟨?_, ?_, ?_, ?_⟩
  · rw [hdb1, db_map_pres_uuids _ _ hfpres]
    exact hIdb
  · intro u hu
    rw [hdb1, dbFind_map_pres _ _ hfpres u]
    cases hg : dbFind db u with
    | none => rfl
    | some r =>
        have hru : r.uuid = u := (dbFind_some hg).1
        have hnm : ¬ (r.uuid ∈ batch.map (fun c => c.uuid) ∧
            r.is_active = true) := by
          intro hand
          rcases List.mem_map.mp hand.1 with ⟨c, hc, hcu⟩
          exact hu c hc (hcu.trans hru)
        simp only [Option.map_some', if_neg hnm]
  · intro c hc
    intro r2 hr2
    rw [hdb1, dbFind_map_pres _ _ hfpres c.uuid] at hr2
    cases hg : dbFind db c.uuid with
    | none =>
        rw [hg] at hr2
        exact absurd hr2 (by simp)
    | some r =>
        rw [hg] at hr2
        simp only [Option.map_some'] at hr2
        injection hr2 with hr2
        have hru : r.uuid = c.uuid := (dbFind_some hg).1
        have hmem : r.uuid ∈ batch.map (fun c2 => c2.uuid) :=
          List.mem_map.mpr ⟨c, hc, hru.symm⟩
        rw [← hr2]
        by_cases hact : r.is_active = true
        · rw [if_pos ⟨hmem, hact⟩]
        · rw [if_neg (fun hand => hact hand.2)]
          cases hb : r.is_active with
          | true => exact absurd hb hact
          | false => rfl
  · intro u hinact r2 hr2
    rw [hdb1, dbFind_map_pres _ _ hfpres u] at hr2
    cases hg : dbFind db u with
    | none =>
        rw [hg] at hr2
        exact absurd hr2 (by simp)
    | some r =>
        rw [hg] at hr2
        simp only [Option.map_some'] at hr2
        injection hr2 with hr2
        have hrin := hinact r hg
        rw [← hr2, if_neg (fun hand => by rw [hrin] at hand; simp at hand)]
        exact hrin

/-- Effect of the whole deleted pass. -/
theorem deletedFoldEstablish {D : Type} :
    ∀ (batches : List (List TembaContact)) (db : List (LocalRecord D))
      (cnt : SyncCounts),
      ((db.map (fun r => r.uuid)).Nodup) →
      (((batches.foldl syncDeletedBatch (db, cnt)).1.map
          (fun r => r.uuid)).Nodup ∧
       (∀ u, (∀ c ∈ batches.flatten, c.uuid ≠ u) →
         dbFind (batches.foldl syncDeletedBatch (db, cnt)).1 u =
           dbFind db u) ∧
       (∀ c ∈ batches.flatten,
         SyncedDeleted (batches.foldl syncDeletedBatch (db, cnt)).1 c) ∧
       (∀ u, (∀ r, dbFind db u = some r → r.is_active = false) →
         ∀ r, dbFind (batches.foldl syncDeletedBatch (db, cnt)).1 u =
           some r → r.is_active = false)) := by
  intro batches
  induction batches with
  | nil =>
      intro db cnt hIdb
      exact ⟨hIdb, fun u _ => rfl, by simp, fun u h => h⟩
  | cons b rest ih =>
      intro db cnt hIdb
      obtain ⟨hn1, hfr1, hdel1, hpres1⟩ := syncDeletedBatch_facts db cnt b
        hIdb
      rcases hsd : syncDeletedBatch (db, cnt) b with ⟨db1, cnt1⟩
      rw [hsd] at hn1 hfr1 hdel1 hpres1
      dsimp only at hn1 hfr1 hdel1 hpres1
      have hfold : (b :: rest).foldl syncDeletedBatch (db, cnt) =
          rest.foldl syncDeletedBatch (db1, cnt1) := by
        rw [List.foldl_cons, hsd]
      rw [hfold]
      obtain ⟨hn', hfr', hdel', hpres'⟩ := ih db1 cnt1 hn1
      refine ⟨hn', ?_, ?_, ?_⟩
      · intro u hu
        rw [hfr' u (fun c2 hc2 => hu c2 (by simp [hc2])),
          hfr1 u (fun c hc => hu c (by simp [hc]))]
      · intro c hc
        rcases List.mem_flatten.mp hc with ⟨l, hl, hcl⟩
        rcases List.mem_cons.mp hl with rfl | hl2
        · intro r hr
          exact hpres' c.uuid (hdel1 c hcl) r hr
        · exact hdel' c (List.mem_flatten.mpr ⟨l, hl2, hcl⟩)
      · intro u hin r hr
        exact hpres' u (hpres1 u hin) r hr

/-- C1 (amended): when the record adapter is coherent — an updated or
freshly created record is active, keeps the snapshot's uuid, and projects
back to a snapshot the Comparator finds clean — and the remote responses
are well-formed (distinct uuids in the active response, active and deleted
responses uuid-disjoint, unique local uuids), a second run of
`sync_pull_contacts` over the same responses returns zero created, updated
and deleted counts and leaves every local record unchanged. -/
theorem sync_pull_contacts_idempotent {D K : Type} (A : SyncAdapter D K)
    (inc_urns : Bool) (fields groups : Option (List String))
    (db db1 : List (LocalRecord D)) (cnt1 : SyncCounts)
    (activeBatches deletedBatches : List (List TembaContact))
    (hup : ∀ (c : TembaContact) (kk : K) (r : LocalRecord D),
      A.kwargs_from_temba c = some kk → r.uuid = c.uuid →
      ({ A.applyKwargs r kk with is_active := true }).uuid = c.uuid ∧
      temba_compare_contacts c
        (A.as_temba { A.applyKwargs r kk with is_active := true })
        inc_urns fields groups = .ok none)
    (hcr : ∀ (c : TembaContact) (kk : K),
      A.kwargs_from_temba c = some kk →
      (A.createFrom kk).uuid = c.uuid ∧
      (A.createFrom kk).is_active = true ∧
      temba_compare_contacts c (A.as_temba (A.createFrom kk)) inc_urns
        fields groups = .ok none)
    (hdistinct : (activeBatches.flatten.map (fun c => c.uuid)).Nodup)
    (hdisj : ∀ c ∈ activeBatches.flatten, ∀ c2 ∈ deletedBatches.flatten,
      c.uuid ≠ c2.uuid)
    (hdbn : (db.map (fun r => r.uuid)).Nodup)
    (hrun1 : sync_pull_contacts A inc_urns fields groups db activeBatches
      deletedBatches = .ok (db1, cnt1)) :
    sync_pull_contacts A inc_urns fields groups db1 activeBatches
      deletedBatches = .ok (db1, ⟨0, 0, 0⟩) := by
  simp only [sync_pull_contacts] at hrun1
  obtain ⟨st1, hact, hpure⟩ := except_bind_ok hrun1
  obtain ⟨sdb, scnt⟩ := st1
  have hout := except_pure_ok hpure
  obtain ⟨hn1, hfr1, hsync1⟩ := activeFoldEstablish hup hcr activeBatches
    db ⟨0, 0, 0⟩ (sdb, scnt) hdistinct hdbn hact
  dsimp only at hn1 hfr1 hsync1
  obtain ⟨hn2, hfr2, hdel2, hpres2⟩ := deletedFoldEstablish deletedBatches
    sdb scnt hn1
  rw [hout] at hn2 hfr2 hdel2 hpres2
  apply sync_pull_contacts_stable A inc_urns fields groups db1
    activeBatches deletedBatches hn2
  · intro c hc
    refine syncedContact_transfer ?_ (hsync1 c hc)
    exact hfr2 c.uuid (fun c2 hc2 he => hdisj c hc c2 hc2 he.symm)
  · exact hdel2

/-- An adapter whose projection never matches the remote snapshot: it
refutes unconditional idempotence of `sync_pull_contacts`. -/
def mismatchedAdapter : SyncAdapter Unit Unit where
  kwargs_from_temba _ := some ()
  applyKwargs r _ := r
  createFrom _ := ⟨"u", true, ()⟩
  as_temba r := ⟨r.uuid, some "X", [], [], []⟩

/-- C1 counterexample: with an adapter whose stored records project to a
snapshot differing from the remote one, the first run creates the record
and the second run over identical remote responses still reports one
update, not (0, 0, 0). -/
theorem sync_pull_contacts_idempotent_counterexample :
    sync_pull_contacts mismatchedAdapter true none none []
      [[⟨"u", none, [], [], []⟩]] [] =
      .ok ([⟨"u", true, ()⟩], ⟨1, 0, 0⟩) ∧
    sync_pull_contacts mismatchedAdapter true none none [⟨"u", true, ()⟩]
      [[⟨"u", none, [], [], []⟩]] [] =
      .ok ([⟨"u", true, ()⟩], ⟨0, 1, 0⟩) := by
  constructor
  · decide
  · decide

/-- The remote snapshot the pinned adapter accepts. -/
def pinnedContact : TembaContact :=
  ⟨"u", none, [], [], []⟩

/-- A coherent adapter over trivial local data, pinned to one snapshot:
its stored records project back to that snapshot exactly. -/
def pinnedAdapter : SyncAdapter Unit Unit where
  kwargs_from_temba c := if c = pinnedContact then some () else none
  applyKwargs r _ := r
  createFrom _ := ⟨"u", true, ()⟩
  as_temba r := ⟨r.uuid, none, [], [], []⟩

/-- C1 witness: the amended idempotence applied to a concrete coherent
adapter and a one-contact response. -/
theorem sync_pull_contacts_idempotent_witness :
    sync_pull_contacts pinnedAdapter true none none [⟨"u", true, ()⟩]
      [[pinnedContact]] [] = .ok ([⟨"u", true, ()⟩], ⟨0, 0, 0⟩) := by
  refine sync_pull_contacts_idempotent pinnedAdapter true none none
    [] [⟨"u", true, ()⟩] ⟨1, 0, 0⟩ [[pinnedContact]] [] ?_ ?_ (by decide)
    (by decide) (by decide) (by decide)
  · intro c kk r hk hr
    by_cases hc : c = pinnedContact
    · subst hc
      refine ⟨hr, ?_⟩
      show temba_compare_contacts pinnedContact ⟨r.uuid, none, [], [], []⟩
        true none none = .ok none
      rw [hr]
      decide
    · rw [show pinnedAdapter.kwargs_from_temba c = none from by
        simp [pinnedAdapter, hc]] at hk
      exact absurd hk (by simp)
  · intro c kk hk
    by_cases hc : c = pinnedContact
    · subst hc
      cases kk
      exact ⟨rfl, rfl, by decide⟩
    · rw [show pinnedAdapter.kwargs_from_temba c = none from by
        simp [pinnedAdapter, hc]] at hk
      exact absurd hk (by simp)

/-- C7: in the per-record body of the first pass of `sync_pull_contacts`,
an incoming snapshot whose local record exists but is inactive and whose
adapter result is non-null overwrites the record from the adapted fields,
marks it active, persists it and counts it as updated — whatever the
Comparator answered, a reported difference or none at all. -/
theorem sync_reactivates_inactive {D K : Type} (A : SyncAdapter D K)
    (inc_urns : Bool) (fields groups : Option (List String))
    (byUuid : String → Option (LocalRecord D))
    (db : List (LocalRecord D)) (inv : List String) (cnt : SyncCounts)
    (incoming : TembaContact) (existing : LocalRecord D) (k : K)
    (hfound : byUuid incoming.uuid = some existing)
    (hkw : A.kwargs_from_temba incoming = some k)
    (hinactive : existing.is_active = false)
    (d : Option String)
    (hcmp : temba_compare_contacts incoming (A.as_temba existing) inc_urns
      fields groups = .ok d) :
    syncProcessIncoming A inc_urns fields groups byUuid (db, inv, cnt)
      incoming = .ok
      (dbSave db incoming.uuid
        { A.applyKwargs existing k with is_active := true },
       inv, { cnt with updated := cnt.updated + 1 }) := by
  simp only [syncProcessIncoming]
  rw [hfound, hkw]
  dsimp only
  rw [hcmp]
  show (if d.isSome = true ∨ existing.is_active = false then _ else _ :
    Except String _) = _
  rw [if_pos (Or.inr hinactive)]
  rfl

/-- C7 witness: a concrete inactive record is reactivated and counted as
updated although the Comparator reports no difference. -/
theorem sync_reactivates_inactive_witness :
    syncProcessIncoming pinnedAdapter true none none
      (fun _ => some ⟨"u", false, ()⟩) ([⟨"u", false, ()⟩], [], ⟨0, 0, 0⟩)
      pinnedContact = .ok
      (dbSave [⟨"u", false, ()⟩] pinnedContact.uuid
        { pinnedAdapter.applyKwargs ⟨"u", false, ()⟩ () with
          is_active := true },
       [], ⟨0, 1, 0⟩) :=
  sync_reactivates_inactive pinnedAdapter true none none
    (fun _ => some ⟨"u", false, ()⟩) [⟨"u", false, ()⟩] [] ⟨0, 0, 0⟩
    pinnedContact ⟨"u", false, ()⟩ () rfl (by decide) rfl none (by decide)
